import Mathlib

/-!
# HTTP authentication header parsing (`auth.go`)

A shallow embedding of the Go package `auth`: the header splitter `Parse`, the
scanners `nextToken`, `readToken`, `readQuoted`, the parameter-list parser
`parseValues` / `ParseValues`, the Basic decoder `ParseBasic` and the
serialiser `Values.Encode`.

Conventions of the embedding.

* A Go `string` is the list of its bytes, of type `List Nat`: a byte is a
  natural number below 256 (the source only compares bytes with constants,
  there is no byte arithmetic).
* A Go function that may abort with a run-time panic (index or slice bounds out
  of range) returns an `Outcome`; every unguarded `s[i]` and every slice
  expression of the source is a checked access here.
* A Go `error` value is an `Option Error`; `none` is `nil`.  Each constructor of
  `Error` stands for one message format of the source.
* The `for` loops that walk `i` from `offset` while `i < len(s)` recurse on the
  suffix `s[offset:]` and carry `i` along; the outer loop of `parseValues` has
  no bound in the source and runs on fuel.
* `encoding/base64` and `bytes.SplitN` belong to the Go standard library.
  `ParseBasic` takes the decoder as an argument; `DecodeString` and
  `EncodeToString` give the standard padded encoding of RFC 4648 for the
  statements that need a concrete one.
-/

namespace HttpAuth

/-! ## Data model -/

/-- Result of running a Go function: `ret` is an ordinary return, `panic` the
run-time abort on an out-of-range index or slice bound, `timeout` the
exhaustion of the fuel of a modelled unbounded loop. -/
inductive Outcome (α : Type) where
  | ret (a : α)
  | panic
  | timeout
  deriving DecidableEq, Repr

/-- The error values the package creates with `errors.New`, one constructor for
each message format:
* `unexpected c pos`: "unexpected 'c' at position pos"
* `invalidChar pos`: "invalid char at position pos"
* `expectingQuote c pos`: "unexpected 'c' at position pos expecting '\"'"
* `reachedEnd`: "expecting '\"' but reached end"
* `expectingEq c pos`: "unexpected 'c' expecting '=' at position pos"
* `unknownCredentialFormat`: "unknown credential format" -/
inductive Error where
  | unexpected (c : Nat) (pos : Nat)
  | invalidChar (pos : Nat)
  | expectingQuote (c : Nat) (pos : Nat)
  | reachedEnd
  | expectingEq (c : Nat) (pos : Nat)
  | unknownCredentialFormat
  deriving DecidableEq, Repr

/-- The struct `Auth` of the source. -/
structure Auth where
  Scheme : List Nat
  RawValue : List Nat
  deriving DecidableEq, Repr

/-- The type `Values` (`map[string]string`): an association list with at most
one pair for each key. -/
abbrev Values := List (List Nat × List Nat)

/-- The assignment `m[name] = value`: any pair stored under `name` is replaced. -/
def Values.set (m : Values) (name value : List Nat) : Values :=
  (name, value) :: m.filter (fun p => p.1 != name)

/-- The lookup `m[name]` with its presence flag. -/
def Values.get (m : Values) (name : List Nat) : Option (List Nat) :=
  (m.find? (fun p => p.1 == name)).map Prod.snd

/-! ## Byte classes, as the `switch` statements list them -/

/-- The first case of the switch in `nextToken`: space, tab, CR, LF. -/
def isSpace (c : Nat) : Bool :=
  c == 32 || c == 9 || c == 13 || c == 10

/-- The third case of the switch in `nextToken`:
`( ) < > @ ; : \ " / [ ] ? = { }`. -/
def isSeparator (c : Nat) : Bool :=
  c == 40 || c == 41 || c == 60 || c == 62 || c == 64 ||
  c == 59 || c == 58 || c == 92 || c == 34 || c == 47 ||
  c == 91 || c == 93 || c == 63 || c == 61 || c == 123 || c == 125

/-- The case list of the switch in `readToken`: the separators, the comma and
the four white-space bytes. -/
def isTerminator (c : Nat) : Bool :=
  isSeparator c || c == 44 || isSpace c

/-- The test `c < ' ' || c >= 127` of the default branches. -/
def isInvalid (c : Nat) : Bool :=
  decide (c < 32) || decide (c ≥ 127)

/-! ## Slices -/

/-- The slice expression `s[lo:hi]`, which panics unless `lo ≤ hi ≤ len(s)`;
`none` is the panic. -/
def slice (s : List Nat) (lo hi : Nat) : Option (List Nat) :=
  if lo ≤ hi ∧ hi ≤ s.length then some ((s.take hi).drop lo) else none

/-! ## nextToken -/

/-- The loop of `nextToken` at index `i`, the first argument being `s[i:]`.
It returns the final `i` and `err`. -/
def nextTokenLoop (comma : Bool) : List Nat → Nat → Nat → Nat × Option Error
  | [], i, _ => (i, none)
  | c :: rest, i, commas =>
    if isSpace c then nextTokenLoop comma rest (i + 1) commas
    else if c = 44 then
      if !comma || decide (commas > 0) then (i, some (Error.unexpected c i))
      else nextTokenLoop comma rest (i + 1) (commas + 1)
    else if isSeparator c then (i, some (Error.unexpected c i))
    else if isInvalid c then (i, some (Error.invalidChar i))
    else (i, none)

/-- The function `nextToken(s, offset, comma)`. -/
def nextToken (s : List Nat) (offset : Nat) (comma : Bool) : Nat × Option Error :=
  nextTokenLoop comma (s.drop offset) offset 0

/-! ## readToken -/

/-- The loop of `readToken` at index `i`, the first argument being `s[i:]`. -/
def readTokenLoop : List Nat → Nat → Nat × Option Error
  | [], i => (i, none)
  | c :: rest, i =>
    if isTerminator c then (i, none)
    else if isInvalid c then (i, some (Error.invalidChar i))
    else readTokenLoop rest (i + 1)

/-- The function `readToken(s, offset)`. -/
def readToken (s : List Nat) (offset : Nat) : Outcome (List Nat × Option Error) :=
  match readTokenLoop (s.drop offset) offset with
  | (_, some err) => Outcome.ret ([], some err)
  | (i, none) =>
    match slice s offset i with
    | none => Outcome.panic
    | some tok => Outcome.ret (tok, none)

/-! ## readQuoted -/

/-- The loop of `readQuoted` at index `i`, the first argument being `s[i:]`.
The branch taken under `escape && c <= 127` assigns `escape = true`, as the
source does. -/
def readQuotedLoop : List Nat → Nat → Bool → Nat × Option Error
  | [], i, _ => (i, none)
  | c :: rest, i, escape =>
    if escape && decide (c ≤ 127) then readQuotedLoop rest (i + 1) true
    else if c = 127 ∨ (c < 32 ∧ c ≠ 9 ∧ c ≠ 13 ∧ c ≠ 10) then
      (i, some (Error.invalidChar i))
    else if c = 34 then (i, none)
    else if c = 92 then readQuotedLoop rest (i + 1) true
    else readQuotedLoop rest (i + 1) escape

/-- The function `readQuoted(s, offset)`. -/
def readQuoted (s : List Nat) (offset : Nat) : Outcome (List Nat × Option Error) :=
  match s[offset]? with
  | none => Outcome.panic
  | some c0 =>
    if c0 ≠ 34 then Outcome.ret ([], some (Error.expectingQuote c0 offset))
    else
      match readQuotedLoop (s.drop (offset + 1)) (offset + 1) false with
      | (i, err) =>
        match s[i]? with
        | none => Outcome.panic
        | some c =>
          if c ≠ 34 then Outcome.ret ([], some Error.reachedEnd)
          else
            match err with
            | some e => Outcome.ret ([], some e)
            | none =>
              match slice s (offset + 1) i with
              | none => Outcome.panic
              | some v => Outcome.ret (v, none)

/-! ## parseValues and ParseValues -/

/-- How one iteration of the loop of `parseValues` ends: `done` is a `break`
(the function then returns `err`, the map being `m`), `next` the start of the
following iteration with the updated map and index; `panic` and `timeout` pass
on the outcome of a call that did not return. -/
inductive Step where
  | done (m : Values) (err : Option Error)
  | panic
  | timeout
  | next (m : Values) (i : Nat)
  deriving DecidableEq, Repr

/-- The body of the `for` loop of `parseValues`, run with map `m` at index
`i`. -/
def parseValuesStep (m : Values) (s : List Nat) (i : Nat) : Step :=
  -- Skip empty space and eat comma
  match nextToken s i (i != 0) with
  | (_, some err) => Step.done m (some err)
  | (i, none) =>
    if i = s.length then Step.done m none
    else
      -- Read name token
      match readToken s i with
      | Outcome.panic => Step.panic
      | Outcome.timeout => Step.timeout
      | Outcome.ret (_, some err) => Step.done m (some err)
      | Outcome.ret (name, none) =>
        let i := i + name.length
        -- Eat expected '='
        match s[i]? with
        | none => Step.panic
        | some c =>
          if c ≠ 61 then Step.done m (some (Error.expectingEq c i))
          else
            let i := i + 1
            -- Read value token or quoted string
            match s[i]? with
            | none => Step.panic
            | some c =>
              if c = 34 then
                match readQuoted s i with
                | Outcome.panic => Step.panic
                | Outcome.timeout => Step.timeout
                | Outcome.ret (_, some err) => Step.done m (some err)
                | Outcome.ret (value, none) => Step.next (m.set name value) (i + 2 + value.length)
              else
                match readToken s i with
                | Outcome.panic => Step.panic
                | Outcome.timeout => Step.timeout
                | Outcome.ret (_, some err) => Step.done m (some err)
                | Outcome.ret (value, none) => Step.next (m.set name value) (i + value.length)

/-- The loop of `parseValues(m, s, offset)` with `i` the current index; it
returns the final map together with `err`.  The source loop has no bound, so
the model takes fuel, one unit for each iteration. -/
def parseValuesLoop : Nat → Values → List Nat → Nat → Outcome (Values × Option Error)
  | 0, _, _, _ => Outcome.timeout
  | fuel + 1, m, s, i =>
    match parseValuesStep m s i with
    | Step.done m err => Outcome.ret (m, err)
    | Step.panic => Outcome.panic
    | Step.timeout => Outcome.timeout
    | Step.next m i => parseValuesLoop fuel m s i

/-- The state of the loop of `parseValues(m, s, 0)` on a fresh map at the start
of its iteration number `n + 1`: the map and the index after `n` iterations that
did not leave the loop; `none` when the loop ended before. -/
def parseValuesState : Nat → List Nat → Option (Values × Nat)
  | 0, _ => some ([], 0)
  | n + 1, s =>
    match parseValuesState n s with
    | none => none
    | some (m, i) =>
      match parseValuesStep m s i with
      | Step.next m' i' => some (m', i')
      | _ => none

/-- The function `parseValues(m, s, offset)`.  Every iteration that does not
leave the loop moves `i` forward, so `len(s) + 1` iterations are enough
(`parseValuesLoop_terminates`). -/
def parseValues (m : Values) (s : List Nat) (offset : Nat) :
    Outcome (Values × Option Error) :=
  parseValuesLoop (s.length + 1) m s offset

/-- The function `ParseValues(s)`: a fresh map is filled by `parseValues` and
returned together with the error. -/
def ParseValues (s : List Nat) : Outcome (Values × Option Error) :=
  parseValues [] s 0

/-- The method `(a *Auth) Values()`: the map of `ParseValues`, the error
dropped. -/
def Auth.Values (a : Auth) : Outcome Values :=
  match ParseValues a.RawValue with
  | Outcome.ret (v, _) => Outcome.ret v
  | Outcome.panic => Outcome.panic
  | Outcome.timeout => Outcome.timeout

/-! ## Parse -/

/-- The function `Parse(s)`, returning the pair `(*Auth, error)`: `(none, some
err)` is `return nil, err` and `(some a, none)` is `return &Auth{...}, nil`. -/
def Parse (s : List Nat) : Outcome (Option Auth × Option Error) :=
  match nextToken s 0 false with
  | (_, some err) => Outcome.ret (none, some err)
  | (offset, none) =>
    match readToken s offset with
    | Outcome.panic => Outcome.panic
    | Outcome.timeout => Outcome.timeout
    | Outcome.ret (_, some err) => Outcome.ret (none, some err)
    | Outcome.ret (scheme, none) =>
      match nextToken s (offset + scheme.length) false with
      | (_, some err) => Outcome.ret (none, some err)
      | (offset, none) =>
        match slice s offset s.length with
        | none => Outcome.panic
        | some raw => Outcome.ret (some ⟨scheme, raw⟩, none)

/-! ## ParseBasic -/

/-- The library call `bytes.SplitN(b, []byte{sep}, 2)`: `b` itself when `sep`
does not occur in it, otherwise the part before the first `sep` and the part
after it. -/
def SplitN (b : List Nat) (sep : Nat) : List (List Nat) :=
  if sep ∈ b then [b.takeWhile (fun c => c != sep), (b.dropWhile (fun c => c != sep)).drop 1]
  else [b]

/-- The function `ParseBasic(s)`, returning `(username, password, err)`.  The
argument `decode` is `base64.StdEncoding.DecodeString`, `none` being its
error. -/
def ParseBasic (decode : List Nat → Option (List Nat)) (s : List Nat) :
    List Nat × List Nat × Option Error :=
  match decode s with
  | none => ([], [], none)
  | some b =>
    match SplitN b 58 with
    | p0 :: p1 :: _ => (p0, p1, none)
    | _ => ([], [], some Error.unknownCredentialFormat)

/-- The method `(a *Auth) Basic()`: the pair of `ParseBasic`, the error
dropped. -/
def Auth.Basic (decode : List Nat → Option (List Nat)) (a : Auth) :
    List Nat × List Nat :=
  ((ParseBasic decode a.RawValue).1, (ParseBasic decode a.RawValue).2.1)

/-! ## Standard base64 (RFC 4648, section 4), the encoding of `base64.StdEncoding` -/

/-- The character of the standard alphabet for the 6-bit value `n`. -/
def encodeStd (n : Nat) : Nat :=
  if n < 26 then 65 + n
  else if n < 52 then 97 + (n - 26)
  else if n < 62 then 48 + (n - 52)
  else if n = 62 then 43
  else 47

/-- The 6-bit value of a character of the standard alphabet. -/
def decodeMap (c : Nat) : Option Nat :=
  if 65 ≤ c ∧ c ≤ 90 then some (c - 65)
  else if 97 ≤ c ∧ c ≤ 122 then some (c - 97 + 26)
  else if 48 ≤ c ∧ c ≤ 57 then some (c - 48 + 52)
  else if c = 43 then some 62
  else if c = 47 then some 63
  else none

/-- The call `base64.StdEncoding.EncodeToString`: three bytes give four
characters, a last group of one or two bytes is padded with `=`. -/
def EncodeToString : List Nat → List Nat
  | a :: b :: c :: rest =>
    encodeStd (a / 4) :: encodeStd (a % 4 * 16 + b / 16) ::
      encodeStd (b % 16 * 4 + c / 64) :: encodeStd (c % 64) :: EncodeToString rest
  | [a, b] => [encodeStd (a / 4), encodeStd (a % 4 * 16 + b / 16), encodeStd (b % 16 * 4), 61]
  | [a] => [encodeStd (a / 4), encodeStd (a % 4 * 16), 61, 61]
  | [] => []

/-- Decoding of the groups of four characters; padding is accepted in the last
group only. -/
def decodeQuanta : List Nat → Option (List Nat)
  | [] => some []
  | c0 :: c1 :: c2 :: c3 :: rest =>
    match decodeMap c0, decodeMap c1 with
    | some x0, some x1 =>
      if c2 = 61 then
        if c3 = 61 ∧ rest = [] then some [x0 * 4 + x1 / 16] else none
      else
        match decodeMap c2 with
        | none => none
        | some x2 =>
          if c3 = 61 then
            if rest = [] then some [x0 * 4 + x1 / 16, x1 % 16 * 16 + x2 / 4] else none
          else
            match decodeMap c3 with
            | none => none
            | some x3 =>
              match decodeQuanta rest with
              | none => none
              | some d =>
                some ((x0 * 4 + x1 / 16) :: (x1 % 16 * 16 + x2 / 4) :: (x2 % 4 * 64 + x3) :: d)
    | _, _ => none
  | _ => none

/-- The call `base64.StdEncoding.DecodeString`, `none` being its error: CR and
LF are ignored, the rest is decoded group by group. -/
def DecodeString (s : List Nat) : Option (List Nat) :=
  decodeQuanta (s.filter (fun c => c != 13 && c != 10))

/-! ## Values.Encode -/

/-- The loop of `Encode` over the entries in the order `range` yields them. -/
def encodeLoop (buf : List Nat) : List (List Nat × List Nat) → List Nat
  | [] => buf
  | (key, value) :: rest =>
    encodeLoop ((if buf.length > 0 then buf ++ [44, 32] else buf)
      ++ key ++ [61, 34] ++ value ++ [34]) rest

/-- The method `(v Values) Encode()`; `none` is the nil map, and the entries
are visited in the order of the list. -/
def Values.Encode : Option Values → List Nat
  | none => []
  | some v => encodeLoop [] v

/-! ## Token bytes -/

/-- A byte that `readToken` consumes: not a terminator and not invalid. -/
def isTokenByte (c : Nat) : Bool :=
  !isTerminator c && !isInvalid c

/-- The separator bytes `( ) < > @ , ; : \ " / [ ] ? = { }`. -/
def separators : List Nat :=
  [40, 41, 60, 62, 64, 44, 59, 58, 92, 34, 47, 91, 93, 63, 61, 123, 125]

/-! ## Well-formed parameter lists, as written by a sender -/

/-- A byte that may stand inside a quoted value without escaping: not `"`, not
`\`, not DEL and no control byte other than tab, CR and LF. -/
def isQuotedByte (c : Nat) : Bool :=
  c != 34 && c != 92 && c != 127 && (decide (32 ≤ c) || c == 9 || c == 13 || c == 10)

/-- One `name=value` entry of a parameter list; `quoted` tells whether the
value is written between double quotes or bare. -/
structure Param where
  name : List Nat
  quoted : Bool
  value : List Nat
  deriving DecidableEq, Repr

/-- The name is a non-empty token; a bare value is a non-empty token, a quoted
value is made of bytes that need no escaping. -/
def Param.wellFormed (p : Param) : Bool :=
  !p.name.isEmpty && p.name.all isTokenByte &&
    (if p.quoted then p.value.all isQuotedByte
     else !p.value.isEmpty && p.value.all isTokenByte)

/-- The text `name=value` or `name="value"` of an entry. -/
def Param.text (p : Param) : List Nat :=
  p.name ++ 61 :: (if p.quoted then 34 :: (p.value ++ [34]) else p.value)

/-- An entry after the first one, with the white space `w0` before and `w1`
after the comma that precedes it. -/
structure Item where
  w0 : List Nat
  w1 : List Nat
  param : Param
  deriving DecidableEq, Repr

/-- The separator is white space, one comma, white space, and the entry is
well formed. -/
def Item.wellFormed (it : Item) : Bool :=
  it.w0.all isSpace && it.w1.all isSpace && it.param.wellFormed

/-- The text of the entries that follow the first one. -/
def serialiseItems : List Item → List Nat
  | [] => []
  | it :: rest => it.w0 ++ 44 :: (it.w1 ++ (it.param.text ++ serialiseItems rest))

/-- The text of a parameter list: the first entry, then each further entry
after its separator. -/
def serialise (p : Param) (rest : List Item) : List Nat :=
  p.text ++ serialiseItems rest

/-- The map obtained from `m` by the assignments `m[name] = value` for the
entries of `ps`, in order. -/
def insertAll (m : Values) (ps : List Param) : Values :=
  ps.foldl (fun acc p => acc.set p.name p.value) m

/-- The entry `key="value"` that `Encode` writes for a pair of the map. -/
def entryParam (kv : List Nat × List Nat) : Param :=
  ⟨kv.1, true, kv.2⟩

/-- An entry that `Encode` writes after the first one, preceded by `", "`. -/
def entryItem (kv : List Nat × List Nat) : Item :=
  ⟨[], [32], entryParam kv⟩

/-! # Lemmas -/

/-! ## Byte classes -/

theorem isSpace_iff (c : Nat) :
    isSpace c = true ↔ c = 32 ∨ c = 9 ∨ c = 13 ∨ c = 10 := by
  simp [isSpace, or_assoc]

theorem isTokenByte_iff (c : Nat) :
    isTokenByte c = true ↔ 33 ≤ c ∧ c ≤ 126 ∧ c ∉ separators := by
  simp only [isTokenByte, isTerminator, isSeparator, isSpace, isInvalid, separators,
    Bool.and_eq_true, Bool.not_eq_true', Bool.or_eq_false_iff, beq_eq_false_iff_ne,
    decide_eq_false_iff_not, List.mem_cons, List.mem_singleton, List.not_mem_nil, or_false]
  constructor <;> intro h <;> omega

theorem isTokenByte_not_space {c : Nat} (h : isTokenByte c = true) : isSpace c = false := by
  simp only [isTokenByte, isTerminator, Bool.and_eq_true, Bool.not_eq_true',
    Bool.or_eq_false_iff] at h
  exact h.1.2

theorem isTokenByte_not_terminator {c : Nat} (h : isTokenByte c = true) :
    isTerminator c = false := by
  simp only [isTokenByte, Bool.and_eq_true, Bool.not_eq_true'] at h
  exact h.1

theorem isTokenByte_not_invalid {c : Nat} (h : isTokenByte c = true) :
    isInvalid c = false := by
  simp only [isTokenByte, Bool.and_eq_true, Bool.not_eq_true'] at h
  exact h.2

/-! ## Slices -/

theorem slice_append (pre mid post : List Nat) :
    slice (pre ++ mid ++ post) pre.length (pre.length + mid.length) = some mid := by
  unfold slice
  rw [if_pos (by simp)]
  simp [List.take_append_eq_append_take]

theorem slice_suffix (pre post : List Nat) :
    slice (pre ++ post) pre.length (pre ++ post).length = some post := by
  unfold slice
  rw [if_pos (by simp)]
  rw [List.take_length, List.drop_left]

theorem drop_append_length (pre post : List Nat) :
    (pre ++ post).drop pre.length = post := by
  simp

/-! ## The scanning loops -/

theorem nextTokenLoop_bounds (comma : Bool) (l : List Nat) (i k : Nat) :
    i ≤ (nextTokenLoop comma l i k).1 ∧ (nextTokenLoop comma l i k).1 ≤ i + l.length := by
  induction l generalizing i k with
  | nil => simp [nextTokenLoop]
  | cons c t ih =>
    unfold nextTokenLoop
    have h1 := ih (i + 1) k
    have h2 := ih (i + 1) (k + 1)
    simp only [List.length_cons]
    split_ifs <;> omega

theorem nextTokenLoop_nil (comma : Bool) (i k : Nat) :
    nextTokenLoop comma [] i k = (i, none) := by
  simp [nextTokenLoop]

theorem nextTokenLoop_token (comma : Bool) (c : Nat) (r : List Nat) (i k : Nat)
    (hc : isTokenByte c = true) : nextTokenLoop comma (c :: r) i k = (i, none) := by
  have h1 := isTokenByte_not_space hc
  have h2 := isTokenByte_not_invalid hc
  have h3 := isTokenByte_not_terminator hc
  simp only [isTerminator, Bool.or_eq_false_iff, beq_eq_false_iff_ne] at h3
  unfold nextTokenLoop
  simp [h1, h2, h3.1.1, h3.1.2]

theorem nextTokenLoop_space (comma : Bool) (w l : List Nat) (i k : Nat)
    (hw : ∀ c ∈ w, isSpace c = true) :
    nextTokenLoop comma (w ++ l) i k = nextTokenLoop comma l (i + w.length) k := by
  induction w generalizing i with
  | nil => simp
  | cons c t ih =>
    have hc : isSpace c = true := hw c (List.mem_cons_self _ _)
    have ht : ∀ c ∈ t, isSpace c = true := fun d hd => hw d (List.mem_cons_of_mem _ hd)
    rw [List.cons_append, nextTokenLoop, if_pos hc, ih _ ht, List.length_cons]
    congr 1
    omega

theorem nextTokenLoop_false (l : List Nat) (i k j : Nat)
    (h : nextTokenLoop false l i k = (j, none)) :
    ∃ w rest, l = w ++ rest ∧ (∀ c ∈ w, isSpace c = true) ∧ j = i + w.length ∧
      (rest = [] ∨ ∃ c r, rest = c :: r ∧ isTokenByte c = true) := by
  induction l generalizing i k with
  | nil =>
    simp only [nextTokenLoop, Prod.mk.injEq, and_true] at h
    exact ⟨[], [], rfl, by simp, by simp [h], Or.inl rfl⟩
  | cons c t ih =>
    unfold nextTokenLoop at h
    by_cases hs : isSpace c = true
    · rw [if_pos hs] at h
      obtain ⟨w, rest, h1, h2, h3, h4⟩ := ih _ _ h
      refine ⟨c :: w, rest, by simp [h1], ?_, by simp [h3]; omega, h4⟩
      intro d hd
      rcases List.mem_cons.1 hd with rfl | hd
      · exact hs
      · exact h2 d hd
    · rw [if_neg hs] at h
      by_cases h44 : c = 44
      · simp [h44] at h
      · rw [if_neg h44] at h
        by_cases hsep : isSeparator c = true
        · simp [hsep] at h
        · rw [if_neg hsep] at h
          by_cases hinv : isInvalid c = true
          · simp [hinv] at h
          · rw [if_neg hinv] at h
            simp only [Prod.mk.injEq, and_true] at h
            refine ⟨[], c :: t, rfl, by simp, by simp [h], Or.inr ⟨c, t, rfl, ?_⟩⟩
            simp only [Bool.not_eq_true] at hs hsep hinv
            simp [isTokenByte, isTerminator, hs, hsep, hinv, h44]

theorem readTokenLoop_tokens (t rest : List Nat) (i : Nat)
    (ht : ∀ c ∈ t, isTokenByte c = true) :
    readTokenLoop (t ++ rest) i = readTokenLoop rest (i + t.length) := by
  induction t generalizing i with
  | nil => simp
  | cons c u ih =>
    have hc : isTokenByte c = true := ht c (List.mem_cons_self _ _)
    have hu : ∀ c ∈ u, isTokenByte c = true := fun d hd => ht d (List.mem_cons_of_mem _ hd)
    rw [List.cons_append, readTokenLoop, if_neg (by simp [isTokenByte_not_terminator hc]),
      if_neg (by simp [isTokenByte_not_invalid hc]), ih _ hu, List.length_cons]
    congr 1
    omega

theorem readTokenLoop_stop (rest : List Nat) (i : Nat)
    (hr : rest = [] ∨ ∃ c r, rest = c :: r ∧ isTerminator c = true) :
    readTokenLoop rest i = (i, none) := by
  rcases hr with rfl | ⟨c, r, rfl, hc⟩
  · simp [readTokenLoop]
  · simp [readTokenLoop, hc]

/-- What the loop of `readToken` does on any input: it consumes the longest
run `t` of token bytes and stops without error at a terminator or the end, or
with the invalid-char error at a control, DEL or high-bit byte. -/
theorem readTokenLoop_spec (l : List Nat) (i : Nat) :
    ∃ t rest, l = t ++ rest ∧ (∀ c ∈ t, isTokenByte c = true) ∧
      ((readTokenLoop l i = (i + t.length, none) ∧
          (rest = [] ∨ ∃ c r, rest = c :: r ∧ isTerminator c = true)) ∨
        (readTokenLoop l i = (i + t.length, some (Error.invalidChar (i + t.length))) ∧
          ∃ c r, rest = c :: r ∧ isTerminator c = false ∧ isInvalid c = true)) := by
  induction l generalizing i with
  | nil => exact ⟨[], [], rfl, by simp, Or.inl ⟨by simp [readTokenLoop], Or.inl rfl⟩⟩
  | cons c u ih =>
    by_cases hterm : isTerminator c = true
    · exact ⟨[], c :: u, rfl, by simp,
        Or.inl ⟨by simp [readTokenLoop, hterm], Or.inr ⟨c, u, rfl, hterm⟩⟩⟩
    · by_cases hinv : isInvalid c = true
      · simp only [Bool.not_eq_true] at hterm
        exact ⟨[], c :: u, rfl, by simp,
          Or.inr ⟨by simp [readTokenLoop, hterm, hinv], c, u, rfl, hterm, hinv⟩⟩
      · obtain ⟨t, rest, h1, h2, h3⟩ := ih (i + 1)
        have hc : isTokenByte c = true := by
          simp only [Bool.not_eq_true] at hterm hinv
          simp [isTokenByte, hterm, hinv]
        have hstep : readTokenLoop (c :: u) i = readTokenLoop u (i + 1) := by
          rw [readTokenLoop, if_neg hterm, if_neg hinv]
        have hlen : i + (c :: t).length = i + 1 + t.length := by
          simp only [List.length_cons]; omega
        refine ⟨c :: t, rest, by simp [h1], ?_, ?_⟩
        · intro d hd
          rcases List.mem_cons.1 hd with rfl | hd
          · exact hc
          · exact h2 d hd
        · rw [hstep, hlen]
          exact h3

/-! ## The scanners at the end of a prefix -/

theorem getElem?_append_length (pre : List Nat) (c : Nat) (post : List Nat) :
    (pre ++ c :: post)[pre.length]? = some c := by
  induction pre with
  | nil => simp
  | cons a p ih => simpa using ih

theorem nextToken_append (pre l : List Nat) (comma : Bool) :
    nextToken (pre ++ l) pre.length comma = nextTokenLoop comma l pre.length 0 := by
  simp [nextToken]

theorem nextToken_bounds (s : List Nat) (offset : Nat) (comma : Bool)
    (h : offset ≤ s.length) :
    offset ≤ (nextToken s offset comma).1 ∧ (nextToken s offset comma).1 ≤ s.length := by
  have hb := nextTokenLoop_bounds comma (s.drop offset) offset 0
  simp only [List.length_drop] at hb
  unfold nextToken
  omega

theorem readToken_append_ok (pre t rest : List Nat)
    (ht : ∀ c ∈ t, isTokenByte c = true)
    (hr : rest = [] ∨ ∃ c r, rest = c :: r ∧ isTerminator c = true) :
    readToken (pre ++ (t ++ rest)) pre.length = Outcome.ret (t, none) := by
  unfold readToken
  rw [drop_append_length, readTokenLoop_tokens t rest _ ht, readTokenLoop_stop rest _ hr]
  simp only []
  rw [← List.append_assoc, slice_append]

theorem readToken_append_err (pre t rest : List Nat)
    (ht : ∀ c ∈ t, isTokenByte c = true)
    (hr : ∃ c r, rest = c :: r ∧ isTerminator c = false ∧ isInvalid c = true) :
    readToken (pre ++ (t ++ rest)) pre.length =
      Outcome.ret ([], some (Error.invalidChar (pre.length + t.length))) := by
  obtain ⟨c, r, rfl, h1, h2⟩ := hr
  unfold readToken
  rw [drop_append_length, readTokenLoop_tokens t _ _ ht]
  simp [readTokenLoop, h1, h2]

/-- The result of `readToken` at any offset inside the string. -/
theorem readToken_spec (pre l : List Nat) :
    ∃ t rest, l = t ++ rest ∧ (∀ c ∈ t, isTokenByte c = true) ∧
      ((readToken (pre ++ l) pre.length = Outcome.ret (t, none) ∧
          (rest = [] ∨ ∃ c r, rest = c :: r ∧ isTerminator c = true)) ∨
        (readToken (pre ++ l) pre.length =
            Outcome.ret ([], some (Error.invalidChar (pre.length + t.length))) ∧
          ∃ c r, rest = c :: r ∧ isTerminator c = false ∧ isInvalid c = true)) := by
  obtain ⟨t, rest, h1, h2, h3⟩ := readTokenLoop_spec l pre.length
  refine ⟨t, rest, h1, h2, ?_⟩
  subst h1
  rcases h3 with ⟨_, h4⟩ | ⟨_, h4⟩
  · exact Or.inl ⟨readToken_append_ok pre t rest h2 h4, h4⟩
  · exact Or.inr ⟨readToken_append_err pre t rest h2 h4, h4⟩

/-! ## Parse -/

/-- Every run of `Parse`: it returns an error, or it splits the input into
white space, the scheme, white space and the raw value. -/
theorem Parse_cases (s : List Nat) :
    (∃ e, Parse s = Outcome.ret (none, some e)) ∨
    (∃ w1 t w2 r, s = w1 ++ t ++ w2 ++ r ∧
      (∀ c ∈ w1, isSpace c = true) ∧ (∀ c ∈ t, isTokenByte c = true) ∧
      (∀ c ∈ w2, isSpace c = true) ∧ (t = [] → w2 = [] ∧ r = []) ∧
      (r = [] ∨ ∃ c r', r = c :: r' ∧ isTokenByte c = true) ∧
      Parse s = Outcome.ret (some ⟨t, r⟩, none)) := by
  have e1 : nextToken s 0 false = nextTokenLoop false s 0 0 := by simp [nextToken]
  rcases h1 : nextTokenLoop false s 0 0 with ⟨j, _ | e⟩
  swap
  · exact Or.inl ⟨e, by simp only [Parse, e1, h1]⟩
  obtain ⟨w1, rest1, hs, hw1, hj, hrest1⟩ := nextTokenLoop_false s 0 0 j h1
  have hj' : j = w1.length := by omega
  subst hj' hs
  obtain ⟨t, rest2, hl, ht, hrt⟩ := readToken_spec w1 rest1
  subst hl
  rcases hrt with ⟨h2, hrest2⟩ | ⟨h2, _⟩
  swap
  · exact Or.inl ⟨Error.invalidChar (w1.length + t.length), by simp only [Parse, e1, h1, h2]⟩
  have e3 : nextToken (w1 ++ (t ++ rest2)) (w1.length + t.length) false
      = nextTokenLoop false rest2 (w1 ++ t).length 0 := by
    rw [← List.append_assoc, ← List.length_append, nextToken_append]
  rcases h3 : nextTokenLoop false rest2 (w1 ++ t).length 0 with ⟨k, _ | e⟩
  swap
  · exact Or.inl ⟨e, by simp only [Parse, e1, h1, h2, e3, h3]⟩
  obtain ⟨w2, r, hs2, hw2, hk, hr⟩ := nextTokenLoop_false rest2 _ 0 k h3
  subst hs2
  have h4 : slice (w1 ++ (t ++ (w2 ++ r))) k (w1 ++ (t ++ (w2 ++ r))).length = some r := by
    have := slice_suffix (w1 ++ t ++ w2) r
    simp only [List.append_assoc, List.length_append] at this hk ⊢
    rw [hk]
    simpa [Nat.add_assoc] using this
  refine Or.inr ⟨w1, t, w2, r, by simp, hw1, ht, hw2, ?_, hr, ?_⟩
  · intro htn
    subst htn
    rcases hrest1 with h | ⟨c, r', h, hc⟩
    · simpa using h
    · rcases hrest2 with h' | ⟨c', r'', h', hc'⟩
      · simpa using h'
      · simp only [List.nil_append] at h
        rw [h] at h'
        simp only [List.cons.injEq] at h'
        rw [← h'.1, isTokenByte_not_terminator hc] at hc'
        exact absurd hc' (by simp)
  · simp only [Parse, e1, h1, h2, e3, h3, h4]

theorem slice_some {s t : List Nat} {lo hi : Nat} (h : slice s lo hi = some t) :
    lo ≤ hi ∧ hi ≤ s.length ∧ lo + t.length = hi ∧ t = (s.take hi).drop lo := by
  unfold slice at h
  split_ifs at h with hc
  simp only [Option.some.injEq] at h
  subst h
  refine ⟨hc.1, hc.2, ?_, rfl⟩
  simp only [List.length_drop, List.length_take]
  omega

theorem readToken_length {s t : List Nat} {offset : Nat}
    (h : readToken s offset = Outcome.ret (t, none)) : offset + t.length ≤ s.length := by
  unfold readToken at h
  rcases hl : readTokenLoop (s.drop offset) offset with ⟨i, _ | e⟩
  · rw [hl] at h
    simp only [] at h
    rcases hs : slice s offset i with _ | tok
    · rw [hs] at h
      simp at h
    · rw [hs] at h
      simp only [Outcome.ret.injEq, Prod.mk.injEq, and_true] at h
      subst h
      have := slice_some hs
      omega
  · rw [hl] at h
    simp at h

/-- A successful `Parse` splits its input into white space, the scheme, white
space and the raw value; the scheme is made of token bytes and is empty only
if nothing follows it. -/
theorem Parse_ok_split {s : List Nat} {a : Auth}
    (h : Parse s = Outcome.ret (some a, none)) :
    ∃ w1 w2, s = w1 ++ a.Scheme ++ w2 ++ a.RawValue ∧
      (∀ c ∈ w1, isSpace c = true) ∧ (∀ c ∈ a.Scheme, isTokenByte c = true) ∧
      (∀ c ∈ w2, isSpace c = true) ∧ (a.Scheme = [] → w2 = [] ∧ a.RawValue = []) := by
  rcases Parse_cases s with ⟨e, he⟩ | ⟨w1, t, w2, r, hs, hw1, ht, hw2, hnil, _, hp⟩
  · rw [he] at h
    simp at h
  · rw [hp] at h
    simp only [Outcome.ret.injEq, Prod.mk.injEq, Option.some.injEq, and_true] at h
    subst h
    exact ⟨w1, w2, hs, hw1, ht, hw2, hnil⟩

/-! ## readQuoted -/

theorem getElem?_of_eq {s : List Nat} {i : Nat} (pre : List Nat) (c : Nat) (post : List Nat)
    (hs : s = pre ++ c :: post) (hi : i = pre.length) : s[i]? = some c := by
  subst hs hi
  exact getElem?_append_length pre c post

theorem readToken_of_eq {s : List Nat} {i : Nat} (pre t rest : List Nat)
    (hs : s = pre ++ (t ++ rest)) (hi : i = pre.length)
    (ht : ∀ c ∈ t, isTokenByte c = true)
    (hr : rest = [] ∨ ∃ c r, rest = c :: r ∧ isTerminator c = true) :
    readToken s i = Outcome.ret (t, none) := by
  subst hs hi
  exact readToken_append_ok pre t rest ht hr

theorem readQuotedLoop_plain (v post : List Nat) (i : Nat)
    (hv : ∀ c ∈ v, isQuotedByte c = true) :
    readQuotedLoop (v ++ 34 :: post) i false = (i + v.length, none) := by
  induction v generalizing i with
  | nil => simp [readQuotedLoop]
  | cons c u ih =>
    have hc : isQuotedByte c = true := hv c (List.mem_cons_self _ _)
    have hu : ∀ c ∈ u, isQuotedByte c = true := fun d hd => hv d (List.mem_cons_of_mem _ hd)
    simp only [isQuotedByte, Bool.and_eq_true, bne_iff_ne, ne_eq, Bool.or_eq_true,
      decide_eq_true_eq, beq_iff_eq] at hc
    rw [List.cons_append, readQuotedLoop, if_neg (by simp), if_neg (by omega),
      if_neg (by omega), if_neg (by omega), ih _ hu, List.length_cons]
    congr 1
    omega

theorem readQuoted_append (pre v post : List Nat)
    (hv : ∀ c ∈ v, isQuotedByte c = true) :
    readQuoted (pre ++ 34 :: (v ++ 34 :: post)) pre.length = Outcome.ret (v, none) := by
  have h0 : (pre ++ 34 :: (v ++ 34 :: post))[pre.length]? = some 34 :=
    getElem?_append_length _ _ _
  have h1 : (pre ++ 34 :: (v ++ 34 :: post)).drop (pre.length + 1) = v ++ 34 :: post := by
    have := drop_append_length (pre ++ [34]) (v ++ 34 :: post)
    simp only [List.append_assoc, List.singleton_append, List.length_append,
      List.length_singleton] at this
    exact this
  have h2 : (pre ++ 34 :: (v ++ 34 :: post))[pre.length + 1 + v.length]? = some 34 :=
    getElem?_of_eq (pre ++ 34 :: v) 34 post (by simp) (by simp; omega)
  have h3 : slice (pre ++ 34 :: (v ++ 34 :: post)) (pre.length + 1) (pre.length + 1 + v.length)
      = some v := by
    have := slice_append (pre ++ [34]) v (34 :: post)
    simpa using this
  unfold readQuoted
  rw [h0]
  simp only [ne_eq, not_true_eq_false, if_false]
  rw [h1, readQuotedLoop_plain v post _ hv]
  simp only []
  rw [h2]
  simp only [ne_eq, not_true_eq_false, if_false]
  rw [h3]

theorem readQuoted_length {s v : List Nat} {offset : Nat}
    (h : readQuoted s offset = Outcome.ret (v, none)) : offset + 2 + v.length ≤ s.length := by
  unfold readQuoted at h
  rcases h0 : s[offset]? with _ | c0
  · rw [h0] at h
    simp at h
  rw [h0] at h
  simp only [] at h
  by_cases hc0 : c0 ≠ 34
  · rw [if_pos hc0] at h
    simp at h
  rw [if_neg hc0] at h
  rcases hl : readQuotedLoop (s.drop (offset + 1)) (offset + 1) false with ⟨i, err⟩
  rw [hl] at h
  simp only [] at h
  rcases hi : s[i]? with _ | c
  · rw [hi] at h
    simp at h
  rw [hi] at h
  simp only [] at h
  by_cases hc : c ≠ 34
  · rw [if_pos hc] at h
    simp at h
  rw [if_neg hc] at h
  rcases err with _ | e
  swap
  · simp at h
  simp only [] at h
  rcases hsl : slice s (offset + 1) i with _ | w
  · rw [hsl] at h
    simp at h
  rw [hsl] at h
  simp only [Outcome.ret.injEq, Prod.mk.injEq, and_true] at h
  subst h
  have h1 := slice_some hsl
  have h2 : i < s.length := by
    by_contra hcon
    rw [List.getElem?_eq_none (by omega)] at hi
    simp at hi
  omega

/-! ## The loop of parseValues: progress and termination -/

/-- An iteration that does not leave the loop moves the index forward and
keeps it inside the string. -/
theorem parseValuesStep_next {m m' : Values} {s : List Nat} {i i' : Nat}
    (h : parseValuesStep m s i = Step.next m' i') : i < i' ∧ i' ≤ s.length := by
  unfold parseValuesStep at h
  have hb := (nextTokenLoop_bounds (i != 0) (s.drop i) i 0).1
  rcases h1 : nextToken s i (i != 0) with ⟨j, _ | e⟩
  swap
  · rw [h1] at h
    simp at h
  have hj : i ≤ j := by
    have : (nextToken s i (i != 0)).1 = j := by rw [h1]
    unfold nextToken at this
    omega
  rw [h1] at h
  simp only [] at h
  by_cases hend : j = s.length
  · rw [if_pos hend] at h
    simp at h
  rw [if_neg hend] at h
  rcases h2 : readToken s j with ⟨name, _ | e⟩ | _ | _
  all_goals rw [h2] at h
  all_goals simp only [reduceCtorEq] at h
  rcases h3 : s[j + name.length]? with _ | c
  all_goals rw [h3] at h
  all_goals simp only [reduceCtorEq] at h
  by_cases hc : c ≠ 61
  · rw [if_pos hc] at h
    simp at h
  rw [if_neg hc] at h
  rcases h4 : s[j + name.length + 1]? with _ | d
  all_goals rw [h4] at h
  all_goals simp only [reduceCtorEq] at h
  by_cases hd : d = 34
  · rw [if_pos hd] at h
    rcases h5 : readQuoted s (j + name.length + 1) with ⟨value, _ | e⟩ | _ | _
    all_goals rw [h5] at h
    all_goals simp only [reduceCtorEq, Step.next.injEq] at h
    have := readQuoted_length h5
    omega
  · rw [if_neg hd] at h
    rcases h5 : readToken s (j + name.length + 1) with ⟨value, _ | e⟩ | _ | _
    all_goals rw [h5] at h
    all_goals simp only [reduceCtorEq, Step.next.injEq] at h
    have := readToken_length h5
    omega

theorem readToken_ne_timeout (s : List Nat) (offset : Nat) :
    readToken s offset ≠ Outcome.timeout := by
  unfold readToken
  rcases readTokenLoop (s.drop offset) offset with ⟨i, _ | e⟩
  · simp only []
    split <;> simp
  · simp

theorem readQuoted_ne_timeout (s : List Nat) (offset : Nat) :
    readQuoted s offset ≠ Outcome.timeout := by
  unfold readQuoted
  rcases s[offset]? with _ | c0
  · simp
  simp only []
  split_ifs
  · simp
  rcases readQuotedLoop (s.drop (offset + 1)) (offset + 1) false with ⟨i, err⟩
  simp only []
  rcases s[i]? with _ | c
  · simp
  simp only []
  split_ifs
  · simp
  rcases err with _ | e
  · simp only []
    split <;> simp
  · simp

/-- No iteration of the loop runs out of fuel: the calls it makes are
bounded. -/
theorem parseValuesStep_ne_timeout (m : Values) (s : List Nat) (i : Nat) :
    parseValuesStep m s i ≠ Step.timeout := by
  intro h
  unfold parseValuesStep at h
  rcases h1 : nextToken s i (i != 0) with ⟨j, _ | e⟩
  all_goals rw [h1] at h
  all_goals simp only [reduceCtorEq] at h
  by_cases hend : j = s.length
  · rw [if_pos hend] at h
    simp at h
  rw [if_neg hend] at h
  rcases h2 : readToken s j with ⟨name, _ | e⟩ | _ | _
  all_goals rw [h2] at h
  all_goals simp only [reduceCtorEq] at h
  swap
  · exact readToken_ne_timeout s j h2
  rcases h3 : s[j + name.length]? with _ | c
  all_goals rw [h3] at h
  all_goals simp only [reduceCtorEq] at h
  by_cases hc : c ≠ 61
  · rw [if_pos hc] at h
    simp at h
  rw [if_neg hc] at h
  rcases h4 : s[j + name.length + 1]? with _ | d
  all_goals rw [h4] at h
  all_goals simp only [reduceCtorEq] at h
  by_cases hd : d = 34
  · rw [if_pos hd] at h
    rcases h5 : readQuoted s (j + name.length + 1) with ⟨value, _ | e⟩ | _ | _
    all_goals rw [h5] at h
    all_goals simp only [reduceCtorEq] at h
    exact readQuoted_ne_timeout s _ h5
  · rw [if_neg hd] at h
    rcases h5 : readToken s (j + name.length + 1) with ⟨value, _ | e⟩ | _ | _
    all_goals rw [h5] at h
    all_goals simp only [reduceCtorEq] at h
    exact readToken_ne_timeout s _ h5

/-- With more fuel than bytes left the loop of `parseValues` never runs out of
fuel. -/
theorem parseValuesLoop_terminates (n : Nat) (m : Values) (s : List Nat) (i : Nat)
    (hn : 0 < n) (h : s.length < n + i) : parseValuesLoop n m s i ≠ Outcome.timeout := by
  induction n generalizing m i with
  | zero => omega
  | succ k ih =>
    unfold parseValuesLoop
    rcases hs : parseValuesStep m s i with ⟨m', err⟩ | _ | _ | ⟨m', i'⟩
    · simp
    · simp
    · exact absurd hs (parseValuesStep_ne_timeout m s i)
    · have := parseValuesStep_next hs
      simp only []
      exact ih m' i' (by omega) (by omega)

/-- More fuel does not change a result that was reached. -/
theorem parseValuesLoop_mono (n k : Nat) (m : Values) (s : List Nat) (i : Nat)
    (h : parseValuesLoop n m s i ≠ Outcome.timeout) :
    parseValuesLoop (n + k) m s i = parseValuesLoop n m s i := by
  induction n generalizing m i with
  | zero => simp [parseValuesLoop] at h
  | succ j ih =>
    have e : j + 1 + k = (j + k) + 1 := by omega
    rw [e]
    unfold parseValuesLoop at h ⊢
    rcases hs : parseValuesStep m s i with ⟨m', err⟩ | _ | _ | ⟨m', i'⟩
    · simp
    · simp
    · simp
    · rw [hs] at h
      simp only [] at h ⊢
      exact ih m' i' h

/-- A result reached with some fuel is the result of `parseValues`. -/
theorem parseValues_of_loop {n : Nat} {m : Values} {s : List Nat}
    {r : Values × Option Error}
    (h : parseValuesLoop n m s 0 = Outcome.ret r) : parseValues m s 0 = Outcome.ret r := by
  have h1 : parseValuesLoop n m s 0 ≠ Outcome.timeout := by rw [h]; simp
  have h2 := parseValuesLoop_terminates (s.length + 1) m s 0 (by omega) (by omega)
  have h3 := parseValuesLoop_mono n (s.length + 1) m s 0 h1
  have h4 := parseValuesLoop_mono (s.length + 1) n m s 0 h2
  unfold parseValues
  rw [← h4, Nat.add_comm, h3, h]

/-- For every input `ParseValues` returns or panics; its loop terminates. -/
theorem ParseValues_terminates (s : List Nat) : ParseValues s ≠ Outcome.timeout :=
  parseValuesLoop_terminates (s.length + 1) [] s 0 (by omega) (by omega)

/-! ## ParseValues on a well-formed parameter list -/

theorem all_true_iff {f : Nat → Bool} {l : List Nat} :
    l.all f = true ↔ ∀ c ∈ l, f c = true := by
  simp

theorem isTokenByte_ne_quote {c : Nat} (h : isTokenByte c = true) : c ≠ 34 := by
  have := (isTokenByte_iff c).1 h
  intro hc
  subst hc
  simp [separators] at this

/-- One iteration of the loop on an entry `p` that starts at the index the
white-space skipper returns: the entry is stored and the index moves to the
end of its text. -/
theorem parseValuesStep_param (m : Values) (pre post : List Nat) (p : Param) (i : Nat)
    (hp : p.wellFormed = true)
    (hpost : post = [] ∨ ∃ c r, post = c :: r ∧ isTerminator c = true)
    (hnext : nextToken (pre ++ (p.text ++ post)) i (i != 0) = (pre.length, none)) :
    parseValuesStep m (pre ++ (p.text ++ post)) i
      = Step.next (m.set p.name p.value) (pre ++ p.text).length := by
  obtain ⟨name, quoted, value⟩ := p
  simp only [Param.wellFormed, Bool.and_eq_true, Bool.not_eq_true', List.isEmpty_eq_false,
    all_true_iff] at hp
  obtain ⟨⟨hne, hname⟩, hval⟩ := hp
  have hlen : pre.length ≠ (pre ++ (Param.text ⟨name, quoted, value⟩ ++ post)).length := by
    simp [Param.text]
  have hrd : readToken (pre ++ (Param.text ⟨name, quoted, value⟩ ++ post)) pre.length
      = Outcome.ret (name, none) :=
    readToken_of_eq pre name (61 :: ((if quoted then 34 :: (value ++ [34]) else value) ++ post))
      (by simp [Param.text]) rfl hname (Or.inr ⟨61, _, rfl, by decide⟩)
  have heq : (pre ++ (Param.text ⟨name, quoted, value⟩ ++ post))[pre.length + name.length]?
      = some 61 :=
    getElem?_of_eq (pre ++ name) 61 ((if quoted then 34 :: (value ++ [34]) else value) ++ post)
      (by simp [Param.text]) (by simp)
  unfold parseValuesStep
  rw [hnext]
  simp only []
  rw [if_neg hlen, hrd]
  simp only []
  rw [heq]
  simp only [ne_eq, not_true_eq_false, if_false]
  cases quoted with
  | true =>
    simp only [if_true, all_true_iff] at hval
    have hq : (pre ++ (Param.text ⟨name, true, value⟩ ++ post))[pre.length + name.length + 1]?
        = some 34 :=
      getElem?_of_eq (pre ++ name ++ [61]) 34 (value ++ 34 :: post)
        (by simp [Param.text]) (by simp [Nat.add_assoc])
    have hrq : readQuoted (pre ++ (Param.text ⟨name, true, value⟩ ++ post))
        (pre.length + name.length + 1) = Outcome.ret (value, none) := by
      have := readQuoted_append (pre ++ name ++ [61]) value post hval
      simp only [List.append_assoc, List.singleton_append, List.length_append,
        List.length_singleton, List.length_cons, List.cons_append] at this
      simp only [Param.text, if_true, List.append_assoc, List.cons_append,
        List.singleton_append, List.nil_append]
      rw [← Nat.add_assoc] at this
      exact this
    rw [hq]
    simp only [if_true]
    rw [hrq]
    simp only [Param.text, if_true, List.length_append, List.length_cons, List.length_nil]
    congr 1
    omega
  | false =>
    simp only [Bool.false_eq_true, if_false, Bool.and_eq_true, Bool.not_eq_true',
      List.isEmpty_eq_false, all_true_iff] at hval
    obtain ⟨hvne, hvtok⟩ := hval
    obtain ⟨c, v', rfl⟩ := List.exists_cons_of_ne_nil hvne
    have hc : isTokenByte c = true := hvtok c (List.mem_cons_self _ _)
    have hq : (pre ++ (Param.text ⟨name, false, c :: v'⟩ ++ post))[pre.length + name.length + 1]?
        = some c :=
      getElem?_of_eq (pre ++ name ++ [61]) c (v' ++ post)
        (by simp [Param.text]) (by simp [Nat.add_assoc])
    have hrt : readToken (pre ++ (Param.text ⟨name, false, c :: v'⟩ ++ post))
        (pre.length + name.length + 1) = Outcome.ret (c :: v', none) :=
      readToken_of_eq (pre ++ name ++ [61]) (c :: v') post
        (by simp [Param.text]) (by simp [Nat.add_assoc]) hvtok hpost
    rw [hq]
    simp only [if_neg (isTokenByte_ne_quote hc)]
    rw [hrt]
    simp only [Param.text, Bool.false_eq_true, if_false, List.length_append, List.length_cons]
    congr 1
    omega

/-- The text of the entries after the first is empty or starts with a byte at
which `readToken` stops. -/
theorem serialiseItems_head (rest : List Item)
    (hrest : ∀ it ∈ rest, it.wellFormed = true) :
    serialiseItems rest = [] ∨
      ∃ c r, serialiseItems rest = c :: r ∧ isTerminator c = true := by
  cases rest with
  | nil => exact Or.inl rfl
  | cons it tl =>
    right
    have hit := hrest it (List.mem_cons_self _ _)
    simp only [Item.wellFormed, Bool.and_eq_true, all_true_iff] at hit
    rcases hw : it.w0 with _ | ⟨c, w⟩
    · exact ⟨44, it.w1 ++ (it.param.text ++ serialiseItems tl),
        by simp [serialiseItems, hw], by decide⟩
    · refine ⟨c, w ++ 44 :: (it.w1 ++ (it.param.text ++ serialiseItems tl)),
        by simp [serialiseItems, hw], ?_⟩
      have : isSpace c = true := hit.1.1 c (by rw [hw]; exact List.mem_cons_self _ _)
      simp [isTerminator, this]

theorem Param.text_head (p : Param) (hp : p.wellFormed = true) :
    ∃ c r, p.text = c :: r ∧ isTokenByte c = true := by
  simp only [Param.wellFormed, Bool.and_eq_true, Bool.not_eq_true', List.isEmpty_eq_false,
    all_true_iff] at hp
  obtain ⟨c, n', hn⟩ := List.exists_cons_of_ne_nil hp.1.1
  exact ⟨c, n' ++ 61 :: (if p.quoted then 34 :: (p.value ++ [34]) else p.value),
    by simp [Param.text, hn], hp.1.2 c (by rw [hn]; exact List.mem_cons_self _ _)⟩

/-- The loop started right after a complete entry (at a non-zero index) reads
all the entries that follow. -/
theorem parseValuesLoop_items (rest : List Item) (pre : List Nat) (m : Values)
    (hpre : pre ≠ []) (hrest : ∀ it ∈ rest, it.wellFormed = true) :
    parseValuesLoop (rest.length + 1) m (pre ++ serialiseItems rest) pre.length
      = Outcome.ret (insertAll m (rest.map Item.param), none) := by
  induction rest generalizing pre m with
  | nil =>
    have hi : (pre.length != 0) = true := by
      simp [List.length_eq_zero, hpre]
    have h1 : nextToken pre pre.length (pre.length != 0) = (pre.length, none) := by
      have := nextToken_append pre [] (pre.length != 0)
      rw [List.append_nil, nextTokenLoop_nil] at this
      exact this
    simp only [serialiseItems, List.length_nil, Nat.zero_add, parseValuesLoop, parseValuesStep,
      List.append_nil, h1, if_true, List.map_nil, insertAll, List.foldl_nil]
  | cons it tl ih =>
    have hit := hrest it (List.mem_cons_self _ _)
    have htl : ∀ x ∈ tl, x.wellFormed = true := fun x hx => hrest x (List.mem_cons_of_mem _ hx)
    simp only [Item.wellFormed, Bool.and_eq_true, all_true_iff] at hit
    obtain ⟨⟨hw0, hw1⟩, hp⟩ := hit
    obtain ⟨c, r, htext, hc⟩ := Param.text_head it.param hp
    have hi : (pre.length != 0) = true := by
      simp [List.length_eq_zero, hpre]
    have hs : pre ++ serialiseItems (it :: tl)
        = (pre ++ it.w0 ++ 44 :: it.w1) ++ (it.param.text ++ serialiseItems tl) := by
      simp [serialiseItems]
    have h1 : nextToken (pre ++ serialiseItems (it :: tl)) pre.length (pre.length != 0)
        = ((pre ++ it.w0 ++ 44 :: it.w1).length, none) := by
      rw [nextToken_append, hi]
      simp only [serialiseItems]
      rw [nextTokenLoop_space true it.w0 _ _ _ hw0, nextTokenLoop, if_neg (by decide),
        if_pos rfl, if_neg (by decide), nextTokenLoop_space true it.w1 _ _ _ hw1, htext,
        List.cons_append, nextTokenLoop_token _ _ _ _ _ hc]
      simp
      omega
    rw [hs] at h1 ⊢
    rw [List.length_cons, parseValuesLoop,
      parseValuesStep_param m _ _ it.param pre.length hp (serialiseItems_head tl htl) h1]
    simp only []
    have := ih (pre ++ it.w0 ++ 44 :: it.w1 ++ it.param.text) (m.set it.param.name it.param.value)
      (by simp) htl
    simp only [List.append_assoc] at this ⊢
    rw [this]
    simp [insertAll]

/-- The result of `ParseValues` on a well-formed parameter list. -/
theorem ParseValues_serialise (p : Param) (rest : List Item)
    (hp : p.wellFormed = true) (hrest : ∀ it ∈ rest, it.wellFormed = true) :
    ParseValues (serialise p rest)
      = Outcome.ret (insertAll [] (p :: rest.map Item.param), none) := by
  obtain ⟨c, r, htext, hc⟩ := Param.text_head p hp
  have h1 : nextToken ([] ++ (p.text ++ serialiseItems rest)) 0 (0 != 0)
      = (([] : List Nat).length, none) := by
    simp only [nextToken, List.nil_append, List.drop_zero, htext, List.cons_append,
      List.length_nil]
    exact nextTokenLoop_token _ _ _ _ _ hc
  have h2 := parseValuesStep_param [] [] (serialiseItems rest) p 0 hp
    (serialiseItems_head rest hrest) h1
  have hne : p.text ≠ [] := by rw [htext]; simp
  have h3 := parseValuesLoop_items rest p.text (Values.set [] p.name p.value) hne hrest
  simp only [List.nil_append] at h2
  apply parseValues_of_loop (n := rest.length + 1 + 1)
  rw [parseValuesLoop]
  unfold serialise
  rw [h2]
  simp only []
  rw [h3]
  simp [insertAll]

/-! ## The map -/

theorem Values.get_set (m : Values) (k v name : List Nat) :
    (m.set k v).get name = if k = name then some v else m.get name := by
  unfold Values.set Values.get
  by_cases h : k = name
  · simp [h]
  · rw [if_neg h, List.find?_cons_of_neg _ (by simpa using h), List.find?_filter]
    congr 2
    funext q
    by_cases hq : q.1 = name
    · simp [hq, Ne.symm h]
    · simp [hq]

theorem Values.set_nodup (m : Values) (k v : List Nat) (h : (m.map Prod.fst).Nodup) :
    ((m.set k v).map Prod.fst).Nodup := by
  unfold Values.set
  rw [List.map_cons, List.nodup_cons]
  constructor
  · simp
  · exact h.sublist ((List.filter_sublist _).map _)

theorem insertAll_nodup (ps : List Param) (m : Values) (h : (m.map Prod.fst).Nodup) :
    ((insertAll m ps).map Prod.fst).Nodup := by
  induction ps generalizing m with
  | nil => exact h
  | cons q ps ih => exact ih _ (Values.set_nodup m _ _ h)

theorem insertAll_get (ps : List Param) (m : Values) (name : List Nat) :
    (insertAll m ps).get name
      = match ps.reverse.find? (fun q => q.name == name) with
        | some q => some q.value
        | none => m.get name := by
  induction ps generalizing m with
  | nil => simp [insertAll]
  | cons q ps ih =>
    have e : insertAll m (q :: ps) = insertAll (m.set q.name q.value) ps := rfl
    rw [e, ih, List.reverse_cons, List.find?_append, Values.get_set]
    rcases hf : List.find? (fun q => q.name == name) ps.reverse with _ | q'
    · by_cases hq : q.name = name
      · simp [hf, hq]
      · simp [hf, hq]
    · simp [hf]

/-! ## Standard base64 -/

theorem decodeMap_encodeStd : ∀ n < 64, decodeMap (encodeStd n) = some n := by
  decide

theorem encodeStd_ne_pad (n : Nat) :
    encodeStd n ≠ 61 ∧ encodeStd n ≠ 13 ∧ encodeStd n ≠ 10 := by
  unfold encodeStd
  split_ifs <;> omega

theorem encodeStd_token : ∀ n < 63, isTokenByte (encodeStd n) = true := by
  decide

theorem EncodeToString_no_newline (d : List Nat) :
    ∀ c ∈ EncodeToString d, (c != 13 && c != 10) = true := by
  induction d using EncodeToString.induct with
  | case1 a b c rest ih =>
    intro x hx
    simp only [EncodeToString, List.mem_cons] at hx
    rcases hx with rfl | rfl | rfl | rfl | hx
    · have := encodeStd_ne_pad (a / 4); simp [this]
    · have := encodeStd_ne_pad (a % 4 * 16 + b / 16); simp [this]
    · have := encodeStd_ne_pad (b % 16 * 4 + c / 64); simp [this]
    · have := encodeStd_ne_pad (c % 64); simp [this]
    · exact ih x hx
  | case2 a b =>
    intro x hx
    simp only [EncodeToString, List.mem_cons, List.mem_singleton, List.not_mem_nil,
      or_false] at hx
    rcases hx with rfl | rfl | rfl | rfl
    · have := encodeStd_ne_pad (a / 4); simp [this]
    · have := encodeStd_ne_pad (a % 4 * 16 + b / 16); simp [this]
    · have := encodeStd_ne_pad (b % 16 * 4); simp [this]
    · decide
  | case3 a =>
    intro x hx
    simp only [EncodeToString, List.mem_cons, List.mem_singleton, List.not_mem_nil,
      or_false] at hx
    rcases hx with rfl | rfl | rfl | rfl
    · have := encodeStd_ne_pad (a / 4); simp [this]
    · have := encodeStd_ne_pad (a % 4 * 16); simp [this]
    · decide
    · decide
  | case4 => simp [EncodeToString]

theorem decodeQuanta_EncodeToString (d : List Nat) (hd : ∀ c ∈ d, c < 256) :
    decodeQuanta (EncodeToString d) = some d := by
  induction d using EncodeToString.induct with
  | case1 a b c rest ih =>
    have ha : a < 256 := hd a (by simp)
    have hb : b < 256 := hd b (by simp)
    have hc : c < 256 := hd c (by simp)
    have hrest : ∀ x ∈ rest, x < 256 := fun x hx => hd x (by simp [hx])
    have h0 := decodeMap_encodeStd (a / 4) (by omega)
    have h1 := decodeMap_encodeStd (a % 4 * 16 + b / 16) (by omega)
    have h2 := decodeMap_encodeStd (b % 16 * 4 + c / 64) (by omega)
    have h3 := decodeMap_encodeStd (c % 64) (by omega)
    have n2 := (encodeStd_ne_pad (b % 16 * 4 + c / 64)).1
    have n3 := (encodeStd_ne_pad (c % 64)).1
    rw [EncodeToString, decodeQuanta, h0, h1]
    simp only [if_neg n2, h2, if_neg n3, h3, ih hrest, Option.some.injEq, List.cons.injEq,
      and_true]
    omega
  | case2 a b =>
    have ha : a < 256 := hd a (by simp)
    have hb : b < 256 := hd b (by simp)
    have h0 := decodeMap_encodeStd (a / 4) (by omega)
    have h1 := decodeMap_encodeStd (a % 4 * 16 + b / 16) (by omega)
    have h2 := decodeMap_encodeStd (b % 16 * 4) (by omega)
    have n2 := (encodeStd_ne_pad (b % 16 * 4)).1
    rw [EncodeToString, decodeQuanta, h0, h1]
    simp only [if_neg n2, h2, if_true, Option.some.injEq, List.cons.injEq, and_true]
    omega
  | case3 a =>
    have ha : a < 256 := hd a (by simp)
    have h0 := decodeMap_encodeStd (a / 4) (by omega)
    have h1 := decodeMap_encodeStd (a % 4 * 16) (by omega)
    rw [EncodeToString, decodeQuanta, h0, h1]
    simp only [if_true, and_self, Option.some.injEq, List.cons.injEq, and_true]
    omega
  | case4 => simp [EncodeToString, decodeQuanta]

/-- Decoding inverts encoding. -/
theorem DecodeString_EncodeToString (d : List Nat) (hd : ∀ c ∈ d, c < 256) :
    DecodeString (EncodeToString d) = some d := by
  unfold DecodeString
  rw [List.filter_eq_self.2 (EncodeToString_no_newline d)]
  exact decodeQuanta_EncodeToString d hd

theorem EncodeToString_head (x : Nat) (l : List Nat) :
    ∃ r, EncodeToString (x :: l) = encodeStd (x / 4) :: r := by
  rcases l with _ | ⟨b, _ | ⟨c, rest⟩⟩
  · exact ⟨_, rfl⟩
  · exact ⟨_, rfl⟩
  · exact ⟨_, by rw [EncodeToString]⟩

/-! ## ParseBasic -/

theorem takeWhile_ne_append (u p : List Nat) (sep : Nat) (hu : sep ∉ u) :
    (u ++ sep :: p).takeWhile (fun c => c != sep) = u ∧
    (u ++ sep :: p).dropWhile (fun c => c != sep) = sep :: p := by
  induction u with
  | nil => simp [List.takeWhile, List.dropWhile]
  | cons c t ih =>
    have hc : c ≠ sep := fun h => hu (by simp [h])
    have ht : sep ∉ t := fun h => hu (by simp [h])
    have hb : (c != sep) = true := by simpa using hc
    rw [List.cons_append, List.takeWhile_cons, List.dropWhile_cons, hb]
    simp [ih ht]

theorem SplitN_first (u p : List Nat) (sep : Nat) (hu : sep ∉ u) :
    SplitN (u ++ sep :: p) sep = [u, p] := by
  unfold SplitN
  rw [if_pos (by simp), (takeWhile_ne_append u p sep hu).1, (takeWhile_ne_append u p sep hu).2]
  rfl

theorem SplitN_none (d : List Nat) (sep : Nat) (hd : sep ∉ d) : SplitN d sep = [d] := by
  unfold SplitN
  rw [if_neg hd]

/-- The part of a list before the first `sep`. -/
theorem exists_first_split (d : List Nat) (sep : Nat) (h : sep ∈ d) :
    ∃ u p, d = u ++ sep :: p ∧ sep ∉ u := by
  induction d with
  | nil => simp at h
  | cons c t ih =>
    by_cases hc : c = sep
    · exact ⟨[], t, by simp [hc], by simp⟩
    · rcases List.mem_cons.1 h with h' | h'
      · exact absurd h'.symm hc
      · obtain ⟨u, p, hd, hu⟩ := ih h'
        refine ⟨c :: u, p, by simp [hd], ?_⟩
        simp only [List.mem_cons, not_or]
        exact ⟨fun e => hc e.symm, hu⟩

theorem ParseBasic_of_split (decode : List Nat → Option (List Nat)) (s u p : List Nat)
    (hd : decode s = some (u ++ 58 :: p)) (hu : 58 ∉ u) :
    ParseBasic decode s = (u, p, none) := by
  unfold ParseBasic
  rw [hd]
  simp only []
  rw [SplitN_first u p 58 hu]

theorem ParseBasic_of_no_colon (decode : List Nat → Option (List Nat)) (s d : List Nat)
    (hd : decode s = some d) (hc : 58 ∉ d) :
    ParseBasic decode s = ([], [], some Error.unknownCredentialFormat) := by
  unfold ParseBasic
  rw [hd]
  simp only []
  rw [SplitN_none d 58 hc]

theorem ParseBasic_of_decode_error (decode : List Nat → Option (List Nat)) (s : List Nat)
    (hd : decode s = none) : ParseBasic decode s = ([], [], none) := by
  unfold ParseBasic
  rw [hd]

/-- The header `t ++ " " ++ r` with `t` a non-empty token and `r` empty or
starting with a token byte is split into the scheme `t` and the raw value
`r`. -/
theorem Parse_token_space (t r : List Nat) (hne : t ≠ [])
    (ht : ∀ c ∈ t, isTokenByte c = true)
    (hr : r = [] ∨ ∃ c r', r = c :: r' ∧ isTokenByte c = true) :
    Parse (t ++ [32] ++ r) = Outcome.ret (some ⟨t, r⟩, none) := by
  obtain ⟨c, t', rfl⟩ := List.exists_cons_of_ne_nil hne
  have hc : isTokenByte c = true := ht c (List.mem_cons_self _ _)
  have h1 : nextToken (c :: t' ++ [32] ++ r) 0 false = (0, none) := by
    simp only [nextToken, List.drop_zero, List.cons_append]
    exact nextTokenLoop_token false c _ 0 0 hc
  have h2 : readToken (c :: t' ++ [32] ++ r) 0 = Outcome.ret (c :: t', none) := by
    have := readToken_append_ok [] (c :: t') (32 :: r) ht (Or.inr ⟨32, r, rfl, by decide⟩)
    simpa using this
  have h3 : nextToken (c :: t' ++ [32] ++ r) (0 + (c :: t').length) false
      = ((c :: t' ++ [32]).length, none) := by
    have e := nextToken_append (c :: t') ([32] ++ r) false
    rw [← List.append_assoc] at e
    rw [Nat.zero_add, e, nextTokenLoop_space false [32] r _ 0 (by decide)]
    have hl : (c :: t').length + [32].length = (c :: t' ++ [32]).length := by simp
    rw [hl]
    rcases hr with rfl | ⟨d, r', rfl, hd⟩
    · exact nextTokenLoop_nil _ _ _
    · exact nextTokenLoop_token _ _ _ _ _ hd
  have h4 := slice_suffix (c :: t' ++ [32]) r
  simp only [Parse, h1, h2, h3, h4]

/-! ## nextToken in general -/

theorem isTerminator_iff (c : Nat) :
    isTerminator c = true ↔ c ∈ separators ∨ c = 32 ∨ c = 9 ∨ c = 13 ∨ c = 10 := by
  simp only [isTerminator, isSeparator, isSpace, separators, Bool.or_eq_true, beq_iff_eq,
    List.mem_cons, List.mem_singleton, List.not_mem_nil, or_false]
  constructor <;> intro h <;> omega

/-- What the loop of `nextToken` does on any input, `k` being the number of
commas already passed: it skips a run `w` of white space with at most one
comma, and stops without error at a token byte or the end, or with an error at
the first byte it cannot skip. -/
theorem nextTokenLoop_spec (comma : Bool) (l : List Nat) (i k : Nat) :
    ∃ w rest, l = w ++ rest ∧ (∀ c ∈ w, isSpace c = true ∨ c = 44) ∧
      w.count 44 ≤ (if comma = true ∧ k = 0 then 1 else 0) ∧
      (nextTokenLoop comma l i k).1 = i + w.length ∧
      (((nextTokenLoop comma l i k).2 = none ∧
          (rest = [] ∨ ∃ c r, rest = c :: r ∧ isTokenByte c = true)) ∨
        (∃ c r, rest = c :: r ∧ isSpace c = false ∧ isTokenByte c = false ∧
          (c = 44 → comma = false ∨ 0 < k + w.count 44) ∧
          (nextTokenLoop comma l i k).2
            = some (if isInvalid c = true then Error.invalidChar (i + w.length)
                else Error.unexpected c (i + w.length)))) := by
  induction l generalizing i k with
  | nil =>
    exact ⟨[], [], rfl, by simp, by simp, by simp [nextTokenLoop],
      Or.inl ⟨by simp [nextTokenLoop], Or.inl rfl⟩⟩
  | cons c t ih =>
    by_cases hs : isSpace c = true
    · obtain ⟨w, rest, h1, h2, h3, h4, h5⟩ := ih (i + 1) k
      have hc44 : c ≠ 44 := by
        intro h
        subst h
        simp [isSpace] at hs
      have hstep : nextTokenLoop comma (c :: t) i k = nextTokenLoop comma t (i + 1) k := by
        rw [nextTokenLoop, if_pos hs]
      have hcount : (c :: w).count 44 = w.count 44 := by
        rw [List.count_cons_of_ne (Ne.symm hc44)]
      have hlen : i + (c :: w).length = i + 1 + w.length := by
        simp only [List.length_cons]; omega
      refine ⟨c :: w, rest, by simp [h1], ?_, by rw [hcount]; exact h3,
        by rw [hstep, hlen]; exact h4, ?_⟩
      · intro d hd
        rcases List.mem_cons.1 hd with rfl | hd
        · exact Or.inl hs
        · exact h2 d hd
      · rw [hstep, hlen, hcount]
        exact h5
    · simp only [Bool.not_eq_true] at hs
      by_cases h44 : c = 44
      · subst h44
        by_cases hcm : comma = true ∧ k = 0
        · obtain ⟨w, rest, h1, h2, h3, h4, h5⟩ := ih (i + 1) (k + 1)
          have hstep : nextTokenLoop comma (44 :: t) i k
              = nextTokenLoop comma t (i + 1) (k + 1) := by
            rw [nextTokenLoop, if_neg (by decide), if_pos rfl, if_neg (by simp [hcm.1, hcm.2])]
          have hw0 : w.count 44 = 0 := by
            rw [if_neg (by omega)] at h3
            omega
          have hcount : (44 :: w).count 44 = 1 := by
            rw [List.count_cons_self, hw0]
          have hlen : i + (44 :: w).length = i + 1 + w.length := by
            simp only [List.length_cons]; omega
          refine ⟨44 :: w, rest, by simp [h1], ?_, by rw [hcount, if_pos hcm],
            by rw [hstep, hlen]; exact h4, ?_⟩
          · intro d hd
            rcases List.mem_cons.1 hd with rfl | hd
            · exact Or.inr rfl
            · exact h2 d hd
          · rw [hstep, hlen]
            rcases h5 with h5 | ⟨d, r, e1, e2, e3, _, e5⟩
            · exact Or.inl h5
            · exact Or.inr ⟨d, r, e1, e2, e3, fun _ => Or.inr (by rw [hcount]; omega), e5⟩
        · have hstep : nextTokenLoop comma (44 :: t) i k = (i, some (Error.unexpected 44 i)) := by
            rw [nextTokenLoop, if_neg (by decide), if_pos rfl, if_pos]
            rcases Bool.eq_false_or_eq_true comma with hc | hc
            · simp only [hc, true_and] at hcm
              simp
              omega
            · simp [hc]
          have hinv44 : isInvalid 44 = false := by decide
          refine ⟨[], 44 :: t, rfl, by simp, by simp, by simp [hstep], Or.inr
            ⟨44, t, rfl, by decide, by decide, ?_, by simp [hstep, hinv44]⟩⟩
          intro _
          simp only [List.count_nil, Nat.add_zero]
          rcases Bool.eq_false_or_eq_true comma with hc | hc
          · simp only [hc, true_and] at hcm
            right
            omega
          · exact Or.inl hc
      · by_cases hsep : isSeparator c = true
        · have hstep : nextTokenLoop comma (c :: t) i k = (i, some (Error.unexpected c i)) := by
            rw [nextTokenLoop, if_neg (by simp [hs]), if_neg h44, if_pos hsep]
          have hinv : isInvalid c = false := by
            simp only [isSeparator, Bool.or_eq_true, beq_iff_eq] at hsep
            simp only [isInvalid, Bool.or_eq_false_iff, decide_eq_false_iff_not]
            omega
          refine ⟨[], c :: t, rfl, by simp, by simp, by simp [hstep], Or.inr
            ⟨c, t, rfl, hs, by simp [isTokenByte, isTerminator, hsep], fun h => absurd h h44,
              by simp [hstep, hinv]⟩⟩
        · simp only [Bool.not_eq_true] at hsep
          by_cases hinv : isInvalid c = true
          · have hstep : nextTokenLoop comma (c :: t) i k = (i, some (Error.invalidChar i)) := by
              rw [nextTokenLoop, if_neg (by simp [hs]), if_neg h44, if_neg (by simp [hsep]),
                if_pos hinv]
            refine ⟨[], c :: t, rfl, by simp, by simp, by simp [hstep], Or.inr
              ⟨c, t, rfl, hs, by simp [isTokenByte, hinv], fun h => absurd h h44,
                by simp [hstep, hinv]⟩⟩
          · simp only [Bool.not_eq_true] at hinv
            have hstep : nextTokenLoop comma (c :: t) i k = (i, none) := by
              rw [nextTokenLoop, if_neg (by simp [hs]), if_neg h44, if_neg (by simp [hsep]),
                if_neg (by simp [hinv])]
            refine ⟨[], c :: t, rfl, by simp, by simp, by simp [hstep], Or.inl
              ⟨by simp [hstep], Or.inr ⟨c, t, rfl, ?_⟩⟩⟩
            simp [isTokenByte, isTerminator, hs, hsep, hinv, h44]


theorem exists_prefix (s : List Nat) (offset : Nat) (h : offset ≤ s.length) :
    ∃ pre, s = pre ++ s.drop offset ∧ pre.length = offset :=
  ⟨s.take offset, (List.take_append_drop offset s).symm, List.length_take_of_le h⟩

theorem take_drop_append (pre w rest : List Nat) :
    ((pre ++ (w ++ rest)).take (pre.length + w.length)).drop pre.length = w := by
  rw [← List.append_assoc, ← List.length_append, List.take_left, List.drop_left]

theorem getElem?_append_head (pre w rest : List Nat) :
    (pre ++ (w ++ rest))[pre.length + w.length]? = rest.head? := by
  rw [← List.append_assoc, ← List.length_append]
  rcases rest with _ | ⟨c, r⟩
  · simp
  · rw [getElem?_append_length]
    rfl

/-- Where `nextToken` stops without error before the end of the input, a token
byte stands. -/
theorem nextToken_stop {s : List Nat} {i j : Nat} {comma : Bool}
    (h : nextToken s i comma = (j, none)) (hj : j < s.length) :
    ∃ c r, s.drop j = c :: r ∧ isTokenByte c = true := by
  obtain ⟨w, rest, h1, _, _, h4, h5⟩ := nextTokenLoop_spec comma (s.drop i) i 0
  unfold nextToken at h
  rw [h] at h4 h5
  simp only [] at h4 h5
  have hdrop : s.drop j = rest := by
    rw [h4, ← List.drop_drop, h1, List.drop_left]
  rcases h5 with ⟨_, h6 | h6⟩ | ⟨_, _, _, _, _, _, h6⟩
  · rw [h6] at hdrop
    have := List.drop_eq_nil_iff.1 hdrop
    omega
  · rw [hdrop]
    exact h6
  · simp at h6

/-- A token read where a token byte stands is not empty. -/
theorem readToken_at_token {s name : List Nat} {j c : Nat} {r : List Nat}
    (hd : s.drop j = c :: r) (hc : isTokenByte c = true)
    (h : readToken s j = Outcome.ret (name, none)) :
    name ≠ [] ∧ ∀ x ∈ name, isTokenByte x = true := by
  have hj : j ≤ s.length := by
    have := readToken_length h
    omega
  obtain ⟨pre, hs, hpre⟩ := exists_prefix s j hj
  obtain ⟨t, rest, hl, ht, hcase⟩ := readToken_spec pre (s.drop j)
  rw [← hs, hpre, h] at hcase
  rcases hcase with ⟨heq, hrest⟩ | ⟨heq, _⟩
  · simp only [Outcome.ret.injEq, Prod.mk.injEq, and_true] at heq
    subst heq
    refine ⟨?_, ht⟩
    intro hnil
    subst hnil
    rw [hd] at hl
    simp only [List.nil_append] at hl
    rcases hrest with h0 | ⟨c', r', h0, hterm⟩
    · rw [h0] at hl
      simp at hl
    · rw [h0] at hl
      simp only [List.cons.injEq] at hl
      rw [← hl.1, isTokenByte_not_terminator hc] at hterm
      simp at hterm
  · simp at heq

/-! ## The map along the loop of parseValues -/

/-- One iteration leaves the loop with the map unchanged, panics, or stores one
entry under a non-empty token and goes on. -/
theorem parseValuesStep_cases (m : Values) (s : List Nat) (i : Nat) :
    (∃ e, parseValuesStep m s i = Step.done m e) ∨
    parseValuesStep m s i = Step.panic ∨
    (∃ name value i', parseValuesStep m s i = Step.next (m.set name value) i' ∧
      name ≠ [] ∧ ∀ c ∈ name, isTokenByte c = true) := by
  unfold parseValuesStep
  rcases h1 : nextToken s i (i != 0) with ⟨j, _ | e⟩
  swap
  · exact Or.inl ⟨_, rfl⟩
  simp only []
  by_cases hend : j = s.length
  · rw [if_pos hend]
    exact Or.inl ⟨_, rfl⟩
  rw [if_neg hend]
  rcases h2 : readToken s j with ⟨name, _ | e⟩ | _ | _
  · simp only []
    have hj : j < s.length := by
      have := readToken_length h2
      omega
    obtain ⟨c, r, hd, hc⟩ := nextToken_stop h1 hj
    have hname := readToken_at_token hd hc h2
    rcases h3 : s[j + name.length]? with _ | c3
    · exact Or.inr (Or.inl rfl)
    simp only []
    by_cases hc3 : c3 ≠ 61
    · rw [if_pos hc3]
      exact Or.inl ⟨_, rfl⟩
    rw [if_neg hc3]
    rcases h4 : s[j + name.length + 1]? with _ | c4
    · exact Or.inr (Or.inl rfl)
    simp only []
    by_cases hc4 : c4 = 34
    · rw [if_pos hc4]
      rcases h5 : readQuoted s (j + name.length + 1) with ⟨value, _ | e⟩ | _ | _
      · exact Or.inr (Or.inr ⟨name, value, _, rfl, hname⟩)
      · exact Or.inl ⟨_, rfl⟩
      · exact Or.inr (Or.inl rfl)
      · exact absurd h5 (readQuoted_ne_timeout s _)
    · rw [if_neg hc4]
      rcases h5 : readToken s (j + name.length + 1) with ⟨value, _ | e⟩ | _ | _
      · exact Or.inr (Or.inr ⟨name, value, _, rfl, hname⟩)
      · exact Or.inl ⟨_, rfl⟩
      · exact Or.inr (Or.inl rfl)
      · exact absurd h5 (readToken_ne_timeout s _)
  · exact Or.inl ⟨_, rfl⟩
  · exact Or.inr (Or.inl rfl)
  · exact absurd h2 (readToken_ne_timeout s _)

/-- The map returned by the loop is the map it started with after a sequence
of assignments under non-empty tokens. -/
theorem parseValuesLoop_map (n : Nat) (m m' : Values) (s : List Nat) (i : Nat)
    (e : Option Error) (h : parseValuesLoop n m s i = Outcome.ret (m', e)) :
    ∃ ps : List Param, m' = insertAll m ps ∧
      ∀ p ∈ ps, p.name ≠ [] ∧ ∀ c ∈ p.name, isTokenByte c = true := by
  induction n generalizing m i with
  | zero => simp [parseValuesLoop] at h
  | succ k ih =>
    unfold parseValuesLoop at h
    rcases parseValuesStep_cases m s i with ⟨e', hs⟩ | hs | ⟨name, value, i', hs, hname⟩
    · rw [hs] at h
      simp only [Outcome.ret.injEq, Prod.mk.injEq] at h
      exact ⟨[], by simp [insertAll, h.1], by simp⟩
    · rw [hs] at h
      simp at h
    · rw [hs] at h
      simp only [] at h
      obtain ⟨ps, h1, h2⟩ := ih _ _ h
      refine ⟨⟨name, false, value⟩ :: ps, by rw [h1]; rfl, ?_⟩
      intro p hp
      rcases List.mem_cons.1 hp with rfl | hp
      · exact hname
      · exact h2 p hp

theorem insertAll_append (m : Values) (ps qs : List Param) :
    insertAll m (ps ++ qs) = insertAll (insertAll m ps) qs := by
  simp [insertAll, List.foldl_append]

/-- Every key of a map built by assignments is a key of the initial map or the
name of an assignment. -/
theorem insertAll_keys (ps : List Param) (m : Values) (k : List Nat)
    (hk : k ∈ (insertAll m ps).map Prod.fst) :
    k ∈ m.map Prod.fst ∨ ∃ p ∈ ps, p.name = k := by
  induction ps generalizing m with
  | nil => exact Or.inl hk
  | cons q ps ih =>
    have e : insertAll m (q :: ps) = insertAll (m.set q.name q.value) ps := rfl
    rw [e] at hk
    rcases ih _ hk with h | ⟨p, hp, hpk⟩
    · simp only [Values.set, List.map_cons, List.mem_cons, List.mem_map, List.mem_filter] at h
      rcases h with h | ⟨a, ⟨ha, _⟩, hak⟩
      · exact Or.inr ⟨q, List.mem_cons_self _ _, h.symm⟩
      · exact Or.inl (List.mem_map.2 ⟨a, ha, hak⟩)
    · exact Or.inr ⟨p, List.mem_cons_of_mem _ hp, hpk⟩

/-- A name assigned to stays in the map. -/
theorem insertAll_get_isSome (ps : List Param) (m : Values) (k : List Nat)
    (hk : (m.get k).isSome = true ∨ ∃ p ∈ ps, p.name = k) :
    ((insertAll m ps).get k).isSome = true := by
  rw [insertAll_get]
  rcases hf : List.find? (fun q => q.name == k) ps.reverse with _ | q
  · rw [hf]
    rcases hk with hk | ⟨p, hp, hpk⟩
    · exact hk
    · have := List.find?_eq_none.1 hf p (List.mem_reverse.2 hp)
      simp [hpk] at this
  · rw [hf]
    rfl

/-! ## A well-formed parameter list followed by more text -/

theorem nextTokenLoop_separator (w0 w1 l : List Nat) (i : Nat)
    (hw0 : ∀ c ∈ w0, isSpace c = true) (hw1 : ∀ c ∈ w1, isSpace c = true) :
    nextTokenLoop true (w0 ++ 44 :: (w1 ++ l)) i 0
      = nextTokenLoop true l (i + w0.length + 1 + w1.length) 1 := by
  rw [nextTokenLoop_space true w0 _ _ _ hw0, nextTokenLoop, if_neg (by decide), if_pos rfl,
    if_neg (by decide), nextTokenLoop_space true w1 _ _ _ hw1]

theorem length_ne_zero_bne {pre : List Nat} (hpre : pre ≠ []) : (pre.length != 0) = true := by
  simp [List.length_eq_zero, hpre]

theorem serialiseItems_tail_head (rest : List Item) (t : List Nat)
    (hrest : ∀ it ∈ rest, it.wellFormed = true)
    (ht : t = [] ∨ ∃ c r, t = c :: r ∧ isTerminator c = true) :
    serialiseItems rest ++ t = [] ∨
      ∃ c r, serialiseItems rest ++ t = c :: r ∧ isTerminator c = true := by
  rcases serialiseItems_head rest hrest with h | ⟨c, r, h, hc⟩
  · rw [h, List.nil_append]
    exact ht
  · exact Or.inr ⟨c, r ++ t, by rw [h, List.cons_append], hc⟩

/-- The loop started right after a complete entry reads the entries that
follow and goes on, with what fuel is left, at the end of the last one. -/
theorem parseValuesLoop_items_tail (rest : List Item) (pre t : List Nat) (m : Values)
    (n : Nat) (hpre : pre ≠ []) (hrest : ∀ it ∈ rest, it.wellFormed = true)
    (ht : t = [] ∨ ∃ c r, t = c :: r ∧ isTerminator c = true) :
    parseValuesLoop (rest.length + n) m (pre ++ (serialiseItems rest ++ t)) pre.length
      = parseValuesLoop n (insertAll m (rest.map Item.param))
          (pre ++ (serialiseItems rest ++ t)) (pre ++ serialiseItems rest).length := by
  induction rest generalizing pre m with
  | nil => simp [serialiseItems, insertAll]
  | cons it tl ih =>
    have hit := hrest it (List.mem_cons_self _ _)
    have htl : ∀ x ∈ tl, x.wellFormed = true := fun x hx => hrest x (List.mem_cons_of_mem _ hx)
    simp only [Item.wellFormed, Bool.and_eq_true, all_true_iff] at hit
    obtain ⟨⟨hw0, hw1⟩, hp⟩ := hit
    obtain ⟨c, r, htext, hc⟩ := Param.text_head it.param hp
    have hs : pre ++ (serialiseItems (it :: tl) ++ t)
        = (pre ++ it.w0 ++ 44 :: it.w1) ++ (it.param.text ++ (serialiseItems tl ++ t)) := by
      simp [serialiseItems]
    have h1 : nextToken (pre ++ (serialiseItems (it :: tl) ++ t)) pre.length (pre.length != 0)
        = ((pre ++ it.w0 ++ 44 :: it.w1).length, none) := by
      rw [nextToken_append, length_ne_zero_bne hpre]
      simp only [serialiseItems, List.append_assoc, List.cons_append]
      rw [nextTokenLoop_separator _ _ _ _ hw0 hw1, htext, List.cons_append,
        nextTokenLoop_token _ _ _ _ _ hc]
      simp
      omega
    have hfuel : (it :: tl).length + n = (tl.length + n) + 1 := by
      simp only [List.length_cons]; omega
    rw [hs] at h1 ⊢
    rw [hfuel, parseValuesLoop,
      parseValuesStep_param m _ _ it.param pre.length hp
        (serialiseItems_tail_head tl t htl ht) h1]
    simp only []
    have := ih (pre ++ it.w0 ++ 44 :: it.w1 ++ it.param.text)
      (m.set it.param.name it.param.value) (by simp) htl
    simp only [List.append_assoc] at this ⊢
    rw [this]
    simp [insertAll, serialiseItems]

/-- The loop of `ParseValues` on a well-formed list followed by `t` stores the
entries of the list and goes on at the end of the list. -/
theorem parseValuesLoop_list_tail (p : Param) (rest : List Item) (t : List Nat) (n : Nat)
    (hp : p.wellFormed = true) (hrest : ∀ it ∈ rest, it.wellFormed = true)
    (ht : t = [] ∨ ∃ c r, t = c :: r ∧ isTerminator c = true) :
    parseValuesLoop (rest.length + n + 1) [] (serialise p rest ++ t) 0
      = parseValuesLoop n (insertAll [] (p :: rest.map Item.param))
          (serialise p rest ++ t) (serialise p rest).length := by
  obtain ⟨c, r, htext, hc⟩ := Param.text_head p hp
  have h1 : nextToken ([] ++ (p.text ++ (serialiseItems rest ++ t))) 0 (0 != 0)
      = (([] : List Nat).length, none) := by
    simp only [nextToken, List.nil_append, List.drop_zero, htext, List.cons_append,
      List.length_nil]
    exact nextTokenLoop_token _ _ _ _ _ hc
  have h2 := parseValuesStep_param [] [] (serialiseItems rest ++ t) p 0 hp
    (serialiseItems_tail_head rest t hrest ht) h1
  have hne : p.text ≠ [] := by rw [htext]; simp
  have h3 := parseValuesLoop_items_tail rest p.text t (Values.set [] p.name p.value) n
    hne hrest ht
  simp only [List.nil_append] at h2
  have hs : serialise p rest ++ t = p.text ++ (serialiseItems rest ++ t) := by
    simp [serialise]
  rw [parseValuesLoop, hs, h2]
  simp only []
  rw [h3]
  simp [insertAll, serialise]

/-- A result the loop reaches from the end of a well-formed list is the result
of `ParseValues` on the whole input. -/
theorem ParseValues_list_tail (p : Param) (rest : List Item) (t : List Nat) (n : Nat)
    (r : Values × Option Error)
    (hp : p.wellFormed = true) (hrest : ∀ it ∈ rest, it.wellFormed = true)
    (ht : t = [] ∨ ∃ c r, t = c :: r ∧ isTerminator c = true)
    (h : parseValuesLoop n (insertAll [] (p :: rest.map Item.param))
          (serialise p rest ++ t) (serialise p rest).length = Outcome.ret r) :
    ParseValues (serialise p rest ++ t) = Outcome.ret r := by
  apply parseValues_of_loop (n := rest.length + n + 1)
  rw [parseValuesLoop_list_tail p rest t n hp hrest ht, h]

theorem serialise_ne_nil (p : Param) (rest : List Item) (hp : p.wellFormed = true) :
    serialise p rest ≠ [] := by
  obtain ⟨c, r, htext, _⟩ := Param.text_head p hp
  simp [serialise, htext]

theorem ParseValues_list_tail_inv (p : Param) (rest : List Item) (t : List Nat)
    (r : Values × Option Error)
    (hp : p.wellFormed = true) (hrest : ∀ it ∈ rest, it.wellFormed = true)
    (ht : t = [] ∨ ∃ c r, t = c :: r ∧ isTerminator c = true)
    (h : ParseValues (serialise p rest ++ t) = Outcome.ret r) :
    ∃ n, parseValuesLoop n (insertAll [] (p :: rest.map Item.param))
      (serialise p rest ++ t) (serialise p rest).length = Outcome.ret r := by
  refine ⟨(serialise p rest ++ t).length + 1, ?_⟩
  have h0 : parseValuesLoop ((serialise p rest ++ t).length + 1) [] (serialise p rest ++ t) 0
      = Outcome.ret r := h
  have hnt : parseValuesLoop ((serialise p rest ++ t).length + 1) [] (serialise p rest ++ t) 0
      ≠ Outcome.timeout := by rw [h0]; simp
  have hm := parseValuesLoop_mono _ (rest.length + 1) _ _ _ hnt
  have hl := parseValuesLoop_list_tail p rest t ((serialise p rest ++ t).length + 1)
    hp hrest ht
  have hfuel : rest.length + ((serialise p rest ++ t).length + 1) + 1
      = (serialise p rest ++ t).length + 1 + (rest.length + 1) := by omega
  rw [← hl, hfuel, hm, h0]

/-- A second comma after a complete entry stops the loop with the
unexpected-',' error at the index of that comma. -/
theorem parseValuesStep_double_comma (m : Values) (pre w0 w1 t : List Nat)
    (hpre : pre ≠ []) (hw0 : ∀ c ∈ w0, isSpace c = true) (hw1 : ∀ c ∈ w1, isSpace c = true) :
    parseValuesStep m (pre ++ (w0 ++ 44 :: (w1 ++ 44 :: t))) pre.length
      = Step.done m (some (Error.unexpected 44 (pre.length + w0.length + 1 + w1.length))) := by
  have h1 : nextToken (pre ++ (w0 ++ 44 :: (w1 ++ 44 :: t))) pre.length (pre.length != 0)
      = (pre.length + w0.length + 1 + w1.length,
          some (Error.unexpected 44 (pre.length + w0.length + 1 + w1.length))) := by
    rw [nextToken_append, length_ne_zero_bne hpre, nextTokenLoop_separator _ _ _ _ hw0 hw1,
      nextTokenLoop, if_neg (by decide), if_pos rfl, if_pos (by decide)]
  unfold parseValuesStep
  rw [h1]

/-- A name followed by a byte that is neither a token byte nor '=' stops the
loop: with the expecting-'=' error when the byte ends the token, with the
invalid-char error otherwise. -/
theorem parseValuesStep_missing_eq (m : Values) (pre name t : List Nat) (c i : Nat)
    (hname : ∀ x ∈ name, isTokenByte x = true)
    (hc : isTokenByte c = false) (h61 : c ≠ 61)
    (hnext : nextToken (pre ++ (name ++ c :: t)) i (i != 0) = (pre.length, none)) :
    parseValuesStep m (pre ++ (name ++ c :: t)) i
      = Step.done m (some (if isTerminator c = true
          then Error.expectingEq c (pre.length + name.length)
          else Error.invalidChar (pre.length + name.length))) := by
  have hlen : pre.length ≠ (pre ++ (name ++ c :: t)).length := by
    simp
  unfold parseValuesStep
  rw [hnext]
  simp only []
  rw [if_neg hlen]
  by_cases hterm : isTerminator c = true
  · have hrd := readToken_append_ok pre name (c :: t) hname (Or.inr ⟨c, t, rfl, hterm⟩)
    have hidx : (pre ++ (name ++ c :: t))[pre.length + name.length]? = some c :=
      getElem?_of_eq (pre ++ name) c t (by simp) (by simp)
    rw [hrd]
    simp only []
    rw [hidx]
    simp only []
    rw [if_pos h61, if_pos hterm]
  · simp only [Bool.not_eq_true] at hterm
    have hinv : isInvalid c = true := by
      simp only [isTokenByte, hterm, Bool.not_false, Bool.true_and, Bool.not_eq_false'] at hc
      exact hc
    have hrd := readToken_append_err pre name (c :: t) hname ⟨c, t, rfl, hterm, hinv⟩
    rw [hrd]
    simp [hterm]

theorem parseValuesLoop_done {m : Values} {s : List Nat} {i : Nat} {e : Option Error}
    (h : parseValuesStep m s i = Step.done m e) :
    parseValuesLoop 1 m s i = Outcome.ret (m, e) := by
  rw [parseValuesLoop, h]

/-! ## readQuoted off the well-formed path -/

/-- Once `escape` is set the loop of `readQuoted` runs to the end of the
input: nothing resets the flag. -/
theorem readQuotedLoop_escaped (l : List Nat) (i : Nat) :
    readQuotedLoop l i true = (i + l.length, none) := by
  induction l generalizing i with
  | nil => simp [readQuotedLoop]
  | cons c t ih =>
    have hlen : i + (c :: t).length = i + 1 + t.length := by
      simp only [List.length_cons]; omega
    rw [readQuotedLoop, hlen]
    by_cases h : c ≤ 127
    · rw [if_pos (by simp [h]), ih]
    · rw [if_neg (by simp [h]), if_neg (by omega), if_neg (by omega), if_neg (by omega), ih]

theorem readQuotedLoop_plain_append (u tail : List Nat) (i : Nat)
    (hu : ∀ c ∈ u, isQuotedByte c = true) :
    readQuotedLoop (u ++ tail) i false = readQuotedLoop tail (i + u.length) false := by
  induction u generalizing i with
  | nil => simp
  | cons c v ih =>
    have hc : isQuotedByte c = true := hu c (List.mem_cons_self _ _)
    have hv : ∀ c ∈ v, isQuotedByte c = true := fun d hd => hu d (List.mem_cons_of_mem _ hd)
    simp only [isQuotedByte, Bool.and_eq_true, bne_iff_ne, ne_eq, Bool.or_eq_true,
      decide_eq_true_eq, beq_iff_eq] at hc
    rw [List.cons_append, readQuotedLoop, if_neg (by simp), if_neg (by omega),
      if_neg (by omega), if_neg (by omega), ih _ hv, List.length_cons]
    congr 1
    omega

/-- A quoted value made of plain bytes that ends with the input, or that
holds a backslash after plain bytes, sends the loop to the end of the input. -/
theorem readQuotedLoop_runs_off (u tail : List Nat) (i : Nat)
    (hu : ∀ c ∈ u, isQuotedByte c = true) (htail : tail = [] ∨ ∃ v, tail = 92 :: v) :
    readQuotedLoop (u ++ tail) i false = (i + (u ++ tail).length, none) := by
  rw [readQuotedLoop_plain_append u tail i hu]
  rcases htail with rfl | ⟨v, rfl⟩
  · simp [readQuotedLoop]
  · rw [readQuotedLoop, if_neg (by simp), if_neg (by omega), if_neg (by omega), if_pos rfl,
      readQuotedLoop_escaped]
    simp only [List.length_append, List.length_cons]
    congr 1
    omega

/-- When the loop reaches the end of the input `readQuoted` reads `s[len(s)]`. -/
theorem readQuoted_runs_off (pre body : List Nat)
    (h : readQuotedLoop body (pre.length + 1) false = (pre.length + 1 + body.length, none)) :
    readQuoted (pre ++ 34 :: body) pre.length = Outcome.panic := by
  have h0 : (pre ++ 34 :: body)[pre.length]? = some 34 := getElem?_append_length _ _ _
  have h1 : (pre ++ 34 :: body).drop (pre.length + 1) = body := by
    have := drop_append_length (pre ++ [34]) body
    simp only [List.append_assoc, List.singleton_append, List.length_append,
      List.length_singleton] at this
    exact this
  have h2 : (pre ++ 34 :: body)[pre.length + 1 + body.length]? = none := by
    apply List.getElem?_eq_none
    simp
    omega
  unfold readQuoted
  rw [h0]
  simp only [ne_eq, not_true_eq_false, if_false]
  rw [h1, h]
  simp only []
  rw [h2]

/-- An invalid byte after plain bytes makes `readQuoted` return the
reached-end error: the byte at the index where the loop stopped is not a
quote, and that test comes before the test of `err`. -/
theorem readQuoted_invalid (pre u t : List Nat) (c : Nat)
    (hu : ∀ x ∈ u, isQuotedByte x = true)
    (hc : c = 127 ∨ (c < 32 ∧ c ≠ 9 ∧ c ≠ 13 ∧ c ≠ 10)) :
    readQuoted (pre ++ 34 :: (u ++ c :: t)) pre.length
      = Outcome.ret ([], some Error.reachedEnd) := by
  have h0 : (pre ++ 34 :: (u ++ c :: t))[pre.length]? = some 34 :=
    getElem?_append_length _ _ _
  have h1 : (pre ++ 34 :: (u ++ c :: t)).drop (pre.length + 1) = u ++ c :: t := by
    have := drop_append_length (pre ++ [34]) (u ++ c :: t)
    simp only [List.append_assoc, List.singleton_append, List.length_append,
      List.length_singleton] at this
    exact this
  have h2 : readQuotedLoop (u ++ c :: t) (pre.length + 1) false
      = (pre.length + 1 + u.length, some (Error.invalidChar (pre.length + 1 + u.length))) := by
    rw [readQuotedLoop_plain_append u _ _ hu, readQuotedLoop, if_neg (by simp), if_pos hc]
  have h3 : (pre ++ 34 :: (u ++ c :: t))[pre.length + 1 + u.length]? = some c :=
    getElem?_of_eq (pre ++ 34 :: u) c t (by simp) (by simp; omega)
  have hc34 : c ≠ 34 := by omega
  unfold readQuoted
  rw [h0]
  simp only [ne_eq, not_true_eq_false, if_false]
  rw [h1, h2]
  simp only []
  rw [h3]
  simp only [ne_eq]
  rw [if_pos hc34]

/-- One iteration of the loop on `name="...`: the outcome is that of
`readQuoted` at the opening quote. -/
theorem parseValuesStep_quoted (m : Values) (pre name body : List Nat) (i : Nat)
    (hname : ∀ x ∈ name, isTokenByte x = true)
    (hnext : nextToken (pre ++ (name ++ 61 :: 34 :: body)) i (i != 0) = (pre.length, none)) :
    parseValuesStep m (pre ++ (name ++ 61 :: 34 :: body)) i
      = match readQuoted (pre ++ (name ++ 61 :: 34 :: body)) (pre.length + name.length + 1) with
        | Outcome.panic => Step.panic
        | Outcome.timeout => Step.timeout
        | Outcome.ret (_, some err) => Step.done m (some err)
        | Outcome.ret (value, none) =>
          Step.next (m.set name value) (pre.length + name.length + 1 + 2 + value.length) := by
  have hlen : pre.length ≠ (pre ++ (name ++ 61 :: 34 :: body)).length := by
    simp
  have hrd := readToken_append_ok pre name (61 :: 34 :: body) hname
    (Or.inr ⟨61, _, rfl, by decide⟩)
  have h61 : (pre ++ (name ++ 61 :: 34 :: body))[pre.length + name.length]? = some 61 :=
    getElem?_of_eq (pre ++ name) 61 (34 :: body) (by simp) (by simp)
  have h34 : (pre ++ (name ++ 61 :: 34 :: body))[pre.length + name.length + 1]? = some 34 :=
    getElem?_of_eq (pre ++ name ++ [61]) 34 body (by simp) (by simp [Nat.add_assoc])
  unfold parseValuesStep
  rw [hnext]
  simp only []
  rw [if_neg hlen, hrd]
  simp only []
  rw [h61]
  simp only [ne_eq, not_true_eq_false, if_false]
  rw [h34]
  simp only [if_true]

/-- The first iteration of `ParseValues` on `name="...`. -/
theorem parseValuesStep_quoted_first (name body : List Nat) (hne : name ≠ [])
    (hname : ∀ x ∈ name, isTokenByte x = true) :
    parseValuesStep [] (name ++ 61 :: 34 :: body) 0
      = match readQuoted ((name ++ [61]) ++ 34 :: body) (name ++ [61]).length with
        | Outcome.panic => Step.panic
        | Outcome.timeout => Step.timeout
        | Outcome.ret (_, some err) => Step.done [] (some err)
        | Outcome.ret (value, none) =>
          Step.next (Values.set [] name value) (name.length + 1 + 2 + value.length) := by
  obtain ⟨x, name', rfl⟩ := List.exists_cons_of_ne_nil hne
  have hx : isTokenByte x = true := hname x (List.mem_cons_self _ _)
  have h1 : nextToken ([] ++ (x :: name' ++ 61 :: 34 :: body)) 0 (0 != 0)
      = (([] : List Nat).length, none) := by
    simp only [nextToken, List.nil_append, List.drop_zero, List.cons_append, List.length_nil]
    exact nextTokenLoop_token _ _ _ _ _ hx
  have h2 := parseValuesStep_quoted [] [] (x :: name') body 0 hname h1
  simp only [List.nil_append, List.length_nil, Nat.zero_add] at h2
  rw [h2]
  simp

/-! ## Encode -/

theorem encodeLoop_items (buf : List Nat) (es : List (List Nat × List Nat))
    (hbuf : buf ≠ []) :
    encodeLoop buf es = buf ++ serialiseItems (es.map entryItem) := by
  induction es generalizing buf with
  | nil => simp [encodeLoop, serialiseItems]
  | cons kv tl ih =>
    obtain ⟨k, v⟩ := kv
    have hlen : buf.length > 0 := List.length_pos.2 hbuf
    rw [encodeLoop, if_pos hlen, ih _ (by simp)]
    simp [serialiseItems, entryItem, entryParam, Param.text]

theorem Encode_cons (kv : List Nat × List Nat) (tl : List (List Nat × List Nat)) :
    Values.Encode (some (kv :: tl)) = serialise (entryParam kv) (tl.map entryItem) := by
  obtain ⟨k, v⟩ := kv
  rw [Values.Encode, encodeLoop, if_neg (by simp), encodeLoop_items _ _ (by simp)]
  simp [serialise, entryParam, Param.text]

/-- Assignments under distinct names that the map does not hold yet are put in
front of it, the last one first. -/
theorem insertAll_fresh (ps : List Param) (m : Values)
    (hnd : (ps.map Param.name).Nodup) (hm : ∀ p ∈ ps, p.name ∉ m.map Prod.fst) :
    insertAll m ps = ps.reverse.map (fun p => (p.name, p.value)) ++ m := by
  induction ps generalizing m with
  | nil => simp [insertAll]
  | cons q ps ih =>
    have e : insertAll m (q :: ps) = insertAll (m.set q.name q.value) ps := rfl
    rw [List.map_cons, List.nodup_cons] at hnd
    have hq : q.name ∉ m.map Prod.fst := hm q (List.mem_cons_self _ _)
    have hset : m.set q.name q.value = (q.name, q.value) :: m := by
      unfold Values.set
      congr 1
      rw [List.filter_eq_self]
      intro a ha
      have : a.1 ≠ q.name := fun h => hq (List.mem_map.2 ⟨a, ha, h⟩)
      simpa using this
    rw [e, hset, ih _ hnd.2]
    · simp
    · intro p hp
      simp only [List.map_cons, List.mem_cons, not_or]
      refine ⟨?_, hm p (List.mem_cons_of_mem _ hp)⟩
      intro h
      exact hnd.1 (List.mem_map.2 ⟨p, hp, h⟩)

theorem Values.get_eq_some_iff (l : Values) (hnd : (l.map Prod.fst).Nodup)
    (k v : List Nat) : l.get k = some v ↔ (k, v) ∈ l := by
  induction l with
  | nil => simp [Values.get]
  | cons a l ih =>
    obtain ⟨a1, a2⟩ := a
    rw [List.map_cons, List.nodup_cons] at hnd
    have hget : Values.get ((a1, a2) :: l) k = if a1 = k then some a2 else Values.get l k := by
      unfold Values.get
      by_cases h : a1 = k
      · simp [h]
      · rw [List.find?_cons_of_neg _ (by simpa using h), if_neg h]
    rw [hget]
    by_cases h : a1 = k
    · subst h
      rw [if_pos rfl]
      constructor
      · intro hv
        simp only [Option.some.injEq] at hv
        subst hv
        exact List.mem_cons_self _ _
      · intro hmem
        rcases List.mem_cons.1 hmem with h' | h'
        · simp only [Prod.mk.injEq, true_and] at h'
          rw [h']
        · exact absurd (List.mem_map.2 ⟨(a1, v), h', rfl⟩) hnd.1
    · rw [if_neg h, ih hnd.2]
      constructor
      · exact fun hmem => List.mem_cons_of_mem _ hmem
      · intro hmem
        rcases List.mem_cons.1 hmem with h' | h'
        · simp only [Prod.mk.injEq] at h'
          exact absurd h'.1.symm h
        · exact h'

/-- Two lists of pairs with the same pairs and distinct keys are the same
map. -/
theorem Values.get_perm (l1 l2 : Values) (hperm : l1.Perm l2)
    (hnd : (l2.map Prod.fst).Nodup) (k : List Nat) : l1.get k = l2.get k := by
  have hnd1 : (l1.map Prod.fst).Nodup := (hperm.map Prod.fst).nodup_iff.2 hnd
  apply Option.ext
  intro v
  rw [Option.mem_def, Option.mem_def, Values.get_eq_some_iff l1 hnd1,
    Values.get_eq_some_iff l2 hnd, hperm.mem_iff]

/-- The result of `ParseValues` on what `Encode` writes for the entries
`order`, when the keys are distinct non-empty tokens and the values need no
escaping. -/
theorem ParseValues_Encode (order : Values) (hnd : (order.map Prod.fst).Nodup)
    (hwf : ∀ kv ∈ order, (entryParam kv).wellFormed = true) :
    ParseValues (Values.Encode (some order)) = Outcome.ret (order.reverse, none) := by
  rcases order with _ | ⟨kv, tl⟩
  · decide
  · rw [Encode_cons, ParseValues_serialise _ _ (hwf kv (List.mem_cons_self _ _))]
    · have hmap : entryParam kv :: (tl.map entryItem).map Item.param
          = (kv :: tl).map entryParam := by
        simp [entryItem, Function.comp_def]
      rw [hmap, insertAll_fresh _ _ (by simpa [entryParam, Function.comp_def] using hnd)
        (by simp)]
      simp [entryParam, Function.comp_def]
    · intro it hit
      obtain ⟨a, ha, rfl⟩ := List.mem_map.1 hit
      have := hwf a (List.mem_cons_of_mem _ ha)
      simp only [Item.wellFormed, entryItem, Bool.and_eq_true]
      exact ⟨⟨by decide, by decide⟩, this⟩

/-- From the state reached after `n` iterations the loop goes on with the
fuel that is left. -/
theorem parseValuesLoop_state (n k : Nat) (s : List Nat) (m : Values) (i : Nat)
    (h : parseValuesState n s = some (m, i)) :
    parseValuesLoop (n + k) [] s 0 = parseValuesLoop k m s i := by
  induction n generalizing k m i with
  | zero =>
    simp only [parseValuesState, Option.some.injEq, Prod.mk.injEq] at h
    rw [← h.1, ← h.2, Nat.zero_add]
  | succ n ih =>
    rw [parseValuesState] at h
    rcases hst : parseValuesState n s with _ | ⟨m0, i0⟩
    · rw [hst] at h
      simp at h
    · rw [hst] at h
      simp only [] at h
      rcases hstep : parseValuesStep m0 s i0 with ⟨m1, e⟩ | _ | _ | ⟨m1, i1⟩
      all_goals rw [hstep] at h
      all_goals simp only [reduceCtorEq, Option.some.injEq, Prod.mk.injEq] at h
      have e1 : n + 1 + k = n + (k + 1) := by omega
      rw [e1, ih (k + 1) m0 i0 hst, parseValuesLoop, hstep, ← h.1, ← h.2]

/-- On an input made of white space only `Parse` returns an Auth whose scheme
and raw value are empty. -/
theorem Parse_of_space (s : List Nat) (hs : ∀ c ∈ s, isSpace c = true) :
    Parse s = Outcome.ret (some ⟨[], []⟩, none) := by
  have h1 : nextToken s 0 false = (s.length, none) := by
    have := nextTokenLoop_space false s [] 0 0 hs
    rw [List.append_nil, nextTokenLoop_nil, Nat.zero_add] at this
    simp only [nextToken, List.drop_zero]
    exact this
  have h2 : readToken s s.length = Outcome.ret ([], none) := by
    have := readToken_append_ok s [] [] (by simp) (Or.inl rfl)
    simpa using this
  have h3 : nextToken s (s.length + ([] : List Nat).length) false = (s.length, none) := by
    have := nextToken_append s [] false
    rw [List.append_nil, nextTokenLoop_nil] at this
    simpa using this
  have h4 : slice s s.length s.length = some [] := by
    have := slice_suffix s []
    simpa using this
  simp only [Parse, h1, h2, h3, h4]

/-! # The claims -/

/-- C1 (the code departs from the claim): `ParseValues` aborts on an
out-of-range index when the input ends after a parameter name ("abc"), after
the `=` ("a=") or inside a quoted value ("a=\"b"): the reads `s[i]` that
follow the name, the `=` and the loop of `readQuoted` are not guarded by
`i < len(s)`. -/
theorem ParseValues_index_out_of_range :
    ParseValues [97, 98, 99] = Outcome.panic ∧
    ParseValues [97, 61] = Outcome.panic ∧
    ParseValues [97, 61, 34, 98] = Outcome.panic :=
  ⟨by decide, by decide, by decide⟩

/-- C2: for every input `s`, `Parse(s)` returns an Auth or an error and never
aborts; the offset given to `readToken`, the offset given to the second
`nextToken` and the lower bound of the slice `s[offset:]` are all at most
`len(s)`. -/
theorem Parse_never_aborts (s : List Nat) :
    ((∃ a, Parse s = Outcome.ret (some a, none)) ∨
      (∃ e, Parse s = Outcome.ret (none, some e))) ∧
    (nextToken s 0 false).1 ≤ s.length ∧
    (∀ scheme, readToken s (nextToken s 0 false).1 = Outcome.ret (scheme, none) →
      (nextToken s 0 false).1 + scheme.length ≤ s.length ∧
      (nextToken s ((nextToken s 0 false).1 + scheme.length) false).1 ≤ s.length) := by
  refine ⟨?_, (nextToken_bounds s 0 false (Nat.zero_le _)).2, ?_⟩
  · rcases Parse_cases s with ⟨e, he⟩ | ⟨_, t, _, r, _, _, _, _, _, _, hp⟩
    · exact Or.inr ⟨e, he⟩
    · exact Or.inl ⟨⟨t, r⟩, hp⟩
  · intro scheme h
    have hlen := readToken_length h
    exact ⟨hlen, (nextToken_bounds s _ false hlen).2⟩

/-- C3: when `Parse(s)` succeeds with result `a`, the input is
`w1 ++ a.Scheme ++ w2 ++ a.RawValue` with `w1` and `w2` made of space, tab, CR
and LF only: the raw value is the untouched suffix of `s` after the scheme and
the white space that follows it. -/
theorem Parse_rawValue_suffix (s : List Nat) (a : Auth)
    (h : Parse s = Outcome.ret (some a, none)) :
    ∃ w1 w2, s = w1 ++ a.Scheme ++ w2 ++ a.RawValue ∧
      (∀ c ∈ w1, c = 32 ∨ c = 9 ∨ c = 13 ∨ c = 10) ∧
      (∀ c ∈ w2, c = 32 ∨ c = 9 ∨ c = 13 ∨ c = 10) := by
  obtain ⟨w1, w2, hs, hw1, _, hw2, _⟩ := Parse_ok_split h
  exact ⟨w1, w2, hs, fun c hc => (isSpace_iff c).1 (hw1 c hc),
    fun c hc => (isSpace_iff c).1 (hw2 c hc)⟩

/-- Witness of C3 on the header " Digest \r\n\tqop=auth, nc=1 ": `Parse`
succeeds with scheme "Digest" and raw value "qop=auth, nc=1 ", and the header
splits accordingly. -/
theorem Parse_rawValue_suffix_witness :
    Parse [32, 68, 105, 103, 101, 115, 116, 32, 13, 10, 9, 113, 111, 112, 61, 97, 117, 116,
        104, 44, 32, 110, 99, 61, 49, 32]
      = Outcome.ret (some ⟨[68, 105, 103, 101, 115, 116],
          [113, 111, 112, 61, 97, 117, 116, 104, 44, 32, 110, 99, 61, 49, 32]⟩, none) ∧
    ∃ w1 w2, [32, 68, 105, 103, 101, 115, 116, 32, 13, 10, 9, 113, 111, 112, 61, 97, 117, 116,
        104, 44, 32, 110, 99, 61, 49, 32]
      = w1 ++ [68, 105, 103, 101, 115, 116] ++ w2
        ++ [113, 111, 112, 61, 97, 117, 116, 104, 44, 32, 110, 99, 61, 49, 32] ∧
      (∀ c ∈ w1, c = 32 ∨ c = 9 ∨ c = 13 ∨ c = 10) ∧
      (∀ c ∈ w2, c = 32 ∨ c = 9 ∨ c = 13 ∨ c = 10) :=
  ⟨by decide,
    Parse_rawValue_suffix
      [32, 68, 105, 103, 101, 115, 116, 32, 13, 10, 9, 113, 111, 112, 61, 97, 117, 116,
        104, 44, 32, 110, 99, 61, 49, 32]
      ⟨[68, 105, 103, 101, 115, 116],
        [113, 111, 112, 61, 97, 117, 116, 104, 44, 32, 110, 99, 61, 49, 32]⟩
      (by decide)⟩

/-- Counterexample to C4: on the empty header `Parse` returns no error and an
Auth whose scheme is empty, and so it does on the header of one space. -/
theorem Parse_empty_scheme :
    Parse [] = Outcome.ret (some ⟨[], []⟩, none) ∧
    Parse [32] = Outcome.ret (some ⟨[], []⟩, none) := by
  decide

/-- C4, amended: on every input made of space, tab, CR and LF only (the empty
input included) `Parse` returns no error and an Auth with empty scheme and
empty raw value; and whenever `Parse(s)` returns no error, the scheme has
length at least 1 exactly when `s` has a byte other than space, tab, CR and
LF. -/
theorem Parse_scheme_nonempty (s : List Nat) :
    ((∀ c ∈ s, c = 32 ∨ c = 9 ∨ c = 13 ∨ c = 10) →
      Parse s = Outcome.ret (some ⟨[], []⟩, none)) ∧
    (∀ a : Auth, Parse s = Outcome.ret (some a, none) →
      (1 ≤ a.Scheme.length ↔ ∃ c ∈ s, c ≠ 32 ∧ c ≠ 9 ∧ c ≠ 13 ∧ c ≠ 10) ∧
      (a.Scheme.length = 0 → a.RawValue = [])) := by
  refine ⟨fun hs => Parse_of_space s (fun c hc => (isSpace_iff c).2 (hs c hc)), ?_⟩
  intro a h
  obtain ⟨w1, w2, hs, hw1, ht, _, hnil⟩ := Parse_ok_split h
  refine ⟨⟨?_, ?_⟩, fun h0 => (hnil (List.length_eq_zero.1 h0)).2⟩
  · intro hlen
    rcases hsch : a.Scheme with _ | ⟨c, t⟩
    · rw [hsch] at hlen
      simp at hlen
    · have hc : isTokenByte c = true := ht c (by rw [hsch]; exact List.mem_cons_self _ _)
      have hsp := isTokenByte_not_space hc
      refine ⟨c, ?_, ?_⟩
      · rw [hs, hsch]
        simp
      · have := (isSpace_iff c).not.1 (by rw [hsp]; simp)
        omega
  · rintro ⟨c, hc, hne⟩
    by_contra hlen
    have h0 : a.Scheme = [] := List.length_eq_zero.1 (by omega)
    obtain ⟨hw2, hr⟩ := hnil h0
    rw [h0, hw2, hr] at hs
    simp only [List.append_nil] at hs
    rw [hs] at hc
    have := (isSpace_iff c).1 (hw1 c hc)
    omega

/-- Witness of the amended C4: the header " \t" of white space only gives an
empty scheme, and the header "Basic abc" the scheme "Basic". -/
theorem Parse_scheme_nonempty_witness :
    Parse [32, 9] = Outcome.ret (some ⟨[], []⟩, none) ∧
    Parse [66, 97, 115, 105, 99, 32, 97, 98, 99]
      = Outcome.ret (some ⟨[66, 97, 115, 105, 99], [97, 98, 99]⟩, none) ∧
    (1 ≤ [66, 97, 115, 105, 99].length ↔
      ∃ c ∈ [66, 97, 115, 105, 99, 32, 97, 98, 99], c ≠ 32 ∧ c ≠ 9 ∧ c ≠ 13 ∧ c ≠ 10) :=
  ⟨(Parse_scheme_nonempty [32, 9]).1 (by decide), by decide,
    ((Parse_scheme_nonempty [66, 97, 115, 105, 99, 32, 97, 98, 99]).2
      ⟨[66, 97, 115, 105, 99], [97, 98, 99]⟩ (by decide)).1⟩

/-- C5: when `Parse(s)` succeeds, every byte of the scheme lies in 0x21..0x7E
and is none of the separators `( ) < > @ , ; : \ " / [ ] ? = { }`. -/
theorem Parse_scheme_token (s : List Nat) (a : Auth)
    (h : Parse s = Outcome.ret (some a, none)) :
    ∀ c ∈ a.Scheme, 33 ≤ c ∧ c ≤ 126 ∧
      c ∉ [40, 41, 60, 62, 64, 44, 59, 58, 92, 34, 47, 91, 93, 63, 61, 123, 125] := by
  obtain ⟨_, _, _, _, ht, _, _⟩ := Parse_ok_split h
  intro c hc
  exact (isTokenByte_iff c).1 (ht c hc)

/-- Witness of C5 on the header "Basic abc" and the byte 'B' of its scheme. -/
theorem Parse_scheme_token_witness :
    Parse [66, 97, 115, 105, 99, 32, 97, 98, 99]
      = Outcome.ret (some ⟨[66, 97, 115, 105, 99], [97, 98, 99]⟩, none) ∧
    (33 ≤ 66 ∧ 66 ≤ 126 ∧
      66 ∉ [40, 41, 60, 62, 64, 44, 59, 58, 92, 34, 47, 91, 93, 63, 61, 123, 125]) :=
  ⟨by decide,
    Parse_scheme_token [66, 97, 115, 105, 99, 32, 97, 98, 99]
      ⟨[66, 97, 115, 105, 99], [97, 98, 99]⟩ (by decide) 66 (by decide)⟩

/-- Counterexample to C6: "a" is a non-empty token and the first byte of "=b"
is not white space, yet `Parse("a =b")` fails with the unexpected-'=' error at
position 2; a payload that starts with a comma or with a control byte is
rejected as well. -/
theorem Parse_rejects_payload :
    (∀ c ∈ [97], isTokenByte c = true) ∧
    Parse ([97] ++ [32] ++ [61, 98]) = Outcome.ret (none, some (Error.unexpected 61 2)) ∧
    Parse ([97] ++ [32] ++ [44, 98]) = Outcome.ret (none, some (Error.unexpected 44 2)) ∧
    Parse ([97] ++ [32] ++ [1, 98]) = Outcome.ret (none, some (Error.invalidChar 2)) := by
  decide

/-- C6, amended: for every non-empty token `t` and every string `r` that is
empty or starts with a token byte, `Parse(t ++ " " ++ r)` succeeds with scheme
`t` and raw value `r`, whatever the other bytes of `r` are. -/
theorem Parse_payload_unvalidated (t r : List Nat) (hne : t ≠ [])
    (ht : ∀ c ∈ t, isTokenByte c = true)
    (hr : r = [] ∨ ∃ c r', r = c :: r' ∧ isTokenByte c = true) :
    Parse (t ++ [32] ++ r) = Outcome.ret (some ⟨t, r⟩, none) :=
  Parse_token_space t r hne ht hr

/-- Witness of the amended C6: scheme "Basic", payload `a"=` followed by the
control byte 0x01. -/
theorem Parse_payload_unvalidated_witness :
    Parse ([66, 97, 115, 105, 99] ++ [32] ++ [97, 34, 61, 1])
      = Outcome.ret (some ⟨[66, 97, 115, 105, 99], [97, 34, 61, 1]⟩, none) :=
  Parse_payload_unvalidated [66, 97, 115, 105, 99] [97, 34, 61, 1] (by decide) (by decide)
    (Or.inr ⟨97, [34, 61, 1], rfl, by decide⟩)

/-- Counterexample to C7: the username of the single byte 0xFF has no ':', the
encoding of "\xff:" is "/zo=", and `Parse("Basic /zo=")` fails with the
unexpected-'/' error at position 6. -/
theorem Basic_round_trip_fails :
    58 ∉ [255] ∧
    EncodeToString ([255] ++ 58 :: []) = [47, 122, 111, 61] ∧
    Parse ([66, 97, 115, 105, 99, 32] ++ EncodeToString ([255] ++ 58 :: []))
      = Outcome.ret (none, some (Error.unexpected 47 6)) := by
  decide

/-- C7, amended: for every username `u` without ':' that is empty or starts
with a byte below 0xFC and every password `p`, with `b` the standard padded
base64 encoding of `u ++ ":" ++ p`, `Parse("Basic " ++ b)` succeeds with scheme
"Basic" and raw value `b`, and `ParseBasic` on that raw value returns `(u, p)`
and no error. -/
theorem Basic_round_trip (u p : List Nat)
    (hu : ∀ c ∈ u, c < 256) (hp : ∀ c ∈ p, c < 256) (hcolon : 58 ∉ u)
    (hfirst : ∀ c, u.head? = some c → c < 252) :
    ∃ a, Parse ([66, 97, 115, 105, 99, 32] ++ EncodeToString (u ++ 58 :: p))
        = Outcome.ret (some a, none) ∧
      a.Scheme = [66, 97, 115, 105, 99] ∧
      a.RawValue = EncodeToString (u ++ 58 :: p) ∧
      ParseBasic DecodeString a.RawValue = (u, p, none) := by
  have hbytes : ∀ c ∈ u ++ 58 :: p, c < 256 := by
    intro c hc
    rcases List.mem_append.1 hc with h | h
    · exact hu c h
    · rcases List.mem_cons.1 h with rfl | h
      · omega
      · exact hp c h
  have hhead : ∃ x l, u ++ 58 :: p = x :: l ∧ x < 252 := by
    rcases u with _ | ⟨c, u'⟩
    · exact ⟨58, p, rfl, by omega⟩
    · exact ⟨c, u' ++ 58 :: p, rfl, hfirst c rfl⟩
  obtain ⟨x, l, hxl, hx⟩ := hhead
  obtain ⟨r, hr⟩ := EncodeToString_head x l
  have htok : isTokenByte (encodeStd (x / 4)) = true := encodeStd_token (x / 4) (by omega)
  have hparse := Parse_token_space [66, 97, 115, 105, 99] (EncodeToString (u ++ 58 :: p))
    (by decide) (by decide) (Or.inr ⟨encodeStd (x / 4), r, by rw [hxl, hr], htok⟩)
  refine ⟨⟨[66, 97, 115, 105, 99], EncodeToString (u ++ 58 :: p)⟩, hparse, rfl, rfl, ?_⟩
  exact ParseBasic_of_split DecodeString _ u p
    (DecodeString_EncodeToString _ hbytes) hcolon

/-- Witness of the amended C7: the test vector of the package, user "Aladdin"
and password "open sesame". -/
theorem Basic_round_trip_witness :
    ∃ a, Parse ([66, 97, 115, 105, 99, 32] ++
          EncodeToString ([65, 108, 97, 100, 100, 105, 110] ++
            58 :: [111, 112, 101, 110, 32, 115, 101, 115, 97, 109, 101]))
        = Outcome.ret (some a, none) ∧
      a.Scheme = [66, 97, 115, 105, 99] ∧
      a.RawValue = EncodeToString ([65, 108, 97, 100, 100, 105, 110] ++
            58 :: [111, 112, 101, 110, 32, 115, 101, 115, 97, 109, 101]) ∧
      ParseBasic DecodeString a.RawValue
        = ([65, 108, 97, 100, 100, 105, 110],
            [111, 112, 101, 110, 32, 115, 101, 115, 97, 109, 101], none) :=
  Basic_round_trip [65, 108, 97, 100, 100, 105, 110]
    [111, 112, 101, 110, 32, 115, 101, 115, 97, 109, 101]
    (by decide) (by decide) (by decide) (by decide)

/-- C8: when the base64 decoder returns bytes `d` that contain a ':',
`ParseBasic(s)` returns no error, the bytes of `d` before its first ':' as the
username and all the bytes after that ':' as the password. -/
theorem ParseBasic_first_colon (decode : List Nat → Option (List Nat)) (s d : List Nat)
    (hd : decode s = some d) (hc : 58 ∈ d) :
    ∃ u p, d = u ++ 58 :: p ∧ 58 ∉ u ∧ ParseBasic decode s = (u, p, none) := by
  obtain ⟨u, p, hsplit, hu⟩ := exists_first_split d 58 hc
  exact ⟨u, p, hsplit, hu, ParseBasic_of_split decode s u p (by rw [hd, hsplit]) hu⟩

/-- Witness of C8: "YTpiOmM=" decodes to "a:b:c", and `ParseBasic` returns the
username "a" and the password "b:c". -/
theorem ParseBasic_first_colon_witness :
    DecodeString [89, 84, 112, 105, 79, 109, 77, 61] = some [97, 58, 98, 58, 99] ∧
    ParseBasic DecodeString [89, 84, 112, 105, 79, 109, 77, 61] = ([97], [98, 58, 99], none) ∧
    ∃ u p, [97, 58, 98, 58, 99] = u ++ 58 :: p ∧ 58 ∉ u ∧
      ParseBasic DecodeString [89, 84, 112, 105, 79, 109, 77, 61] = (u, p, none) :=
  ⟨by decide, by decide,
    ParseBasic_first_colon DecodeString [89, 84, 112, 105, 79, 109, 77, 61]
      [97, 58, 98, 58, 99] (by decide) (by decide)⟩

/-- C9: `ParseBasic(s)` returns an error exactly when the base64 decoder
accepts `s` and the decoded bytes contain no ':', and the error is then the
unknown-credential-format one; when the decoder rejects `s`, the username and
the password are empty and the error is nil. -/
theorem ParseBasic_error_iff (decode : List Nat → Option (List Nat)) (s : List Nat) :
    ((ParseBasic decode s).2.2 ≠ none ↔ ∃ d, decode s = some d ∧ 58 ∉ d) ∧
    ((ParseBasic decode s).2.2 ≠ none →
      ParseBasic decode s = ([], [], some Error.unknownCredentialFormat)) ∧
    (decode s = none → ParseBasic decode s = ([], [], none)) := by
  rcases hd : decode s with _ | d
  · have h := ParseBasic_of_decode_error decode s hd
    simp [h]
  · by_cases hc : 58 ∈ d
    · obtain ⟨u, p, hsplit, hu⟩ := exists_first_split d 58 hc
      have h := ParseBasic_of_split decode s u p (by rw [hd, hsplit]) hu
      simp [h, hc]
    · have h := ParseBasic_of_no_colon decode s d hd hc
      simp [h, hc]

/-- C10: for a well-formed first entry `p` and well-formed further entries
`rest` (names non-empty tokens, bare values non-empty tokens, quoted values
free of `"`, `\`, DEL and control bytes other than tab, CR, LF, one comma with
optional white space around it between two entries), `ParseValues` on the
serialised list returns no error and the map obtained by inserting the entries
in order; that map has one pair for each distinct name, and a name is mapped to
the value of its last entry. -/
theorem ParseValues_wellFormed_list (p : Param) (rest : List Item)
    (hp : p.wellFormed = true) (hrest : ∀ it ∈ rest, it.wellFormed = true) :
    ParseValues (serialise p rest)
      = Outcome.ret (insertAll [] (p :: rest.map Item.param), none) ∧
    ((insertAll [] (p :: rest.map Item.param)).map Prod.fst).Nodup ∧
    ∀ name, (insertAll [] (p :: rest.map Item.param)).get name
      = ((p :: rest.map Item.param).reverse.find? (fun q => q.name == name)).map
          Param.value := by
  refine ⟨ParseValues_serialise p rest hp hrest, insertAll_nodup _ _ (by simp), ?_⟩
  intro name
  rw [insertAll_get]
  generalize List.find? (fun q => q.name == name) (p :: rest.map Item.param).reverse = o
  cases o <;> rfl

/-- Witness of C10: the list `a=1 , b="x y",a=3` is parsed without error into
the map with `a` bound to "3" and `b` bound to "x y". -/
theorem ParseValues_wellFormed_list_witness :
    ParseValues [97, 61, 49, 32, 44, 32, 98, 61, 34, 120, 32, 121, 34, 44, 97, 61, 51]
      = Outcome.ret ([([97], [51]), ([98], [120, 32, 121])], none) :=
  (ParseValues_wellFormed_list ⟨[97], false, [49]⟩
    [⟨[32], [32], ⟨[98], true, [120, 32, 121]⟩⟩, ⟨[], [], ⟨[97], false, [51]⟩⟩]
    (by decide) (by decide)).1

/-- Counterexample to C11: on `a=1,, b=2` `ParseValues` returns the
unexpected-',' error together with the map that holds `a` bound to "1", and
`Values()` hands that one-entry map to the caller. -/
theorem ParseValues_partial_map :
    ParseValues [97, 61, 49, 44, 44, 32, 98, 61, 50]
      = Outcome.ret ([([97], [49])], some (Error.unexpected 44 4)) ∧
    Auth.Values ⟨[68], [97, 61, 49, 44, 44, 32, 98, 61, 50]⟩ = Outcome.ret [([97], [49])] :=
  ⟨by decide, by decide⟩

/-- C11, amended: the entries parsed before an error are kept.  When the input
is a well-formed parameter list followed by `t` (empty or starting with white
space, a comma or a separator) and `ParseValues` returns the map `m` with an
error, `m` is the map of the entries of the list after further assignments,
and every name of the list is a key of `m`. -/
theorem ParseValues_keeps_entries (p : Param) (rest : List Item) (t : List Nat)
    (m : Values) (e : Error)
    (hp : p.wellFormed = true) (hrest : ∀ it ∈ rest, it.wellFormed = true)
    (ht : t = [] ∨ ∃ c r, t = c :: r ∧ isTerminator c = true)
    (h : ParseValues (serialise p rest ++ t) = Outcome.ret (m, some e)) :
    (∃ extra : List Param, m = insertAll (insertAll [] (p :: rest.map Item.param)) extra) ∧
    (∀ q ∈ p :: rest.map Item.param, (m.get q.name).isSome = true) ∧
    m ≠ [] := by
  obtain ⟨n, hn⟩ := ParseValues_list_tail_inv p rest t (m, some e) hp hrest ht h
  obtain ⟨extra, hm, _⟩ := parseValuesLoop_map n _ m _ _ _ hn
  have hkeys : ∀ q ∈ p :: rest.map Item.param, (m.get q.name).isSome = true := by
    intro q hq
    rw [hm, ← insertAll_append]
    exact insertAll_get_isSome _ _ _ (Or.inr ⟨q, List.mem_append_left _ hq, rfl⟩)
  refine ⟨⟨extra, hm⟩, hkeys, ?_⟩
  intro hnil
  have := hkeys p (List.mem_cons_self _ _)
  rw [hnil] at this
  simp [Values.get] at this

/-- Witness of the amended C11 on `a=1,, b=2`: the list is `a=1`, the text
after it is `,, b=2`, and the name `a` is a key of the map returned with the
error. -/
theorem ParseValues_keeps_entries_witness :
    ParseValues (serialise ⟨[97], false, [49]⟩ [] ++ [44, 44, 32, 98, 61, 50])
      = Outcome.ret ([([97], [49])], some (Error.unexpected 44 4)) ∧
    (Values.get [([97], [49])] [97]).isSome = true :=
  ⟨by decide,
    (ParseValues_keeps_entries ⟨[97], false, [49]⟩ [] [44, 44, 32, 98, 61, 50]
      [([97], [49])] (Error.unexpected 44 4) (by decide) (by decide)
      (Or.inr ⟨44, [44, 32, 98, 61, 50], rfl, by decide⟩) (by decide)).2.1
      ⟨[97], false, [49]⟩ (List.mem_cons_self _ _)⟩

/-- C12: on a well-formed parameter list followed by white space `w0`, a comma,
white space `w1`, a second comma and any text, `ParseValues` returns the
unexpected-',' error at the index of the second comma,
`len(list) + len(w0) + 1 + len(w1)`, together with the map of the entries of
the list. -/
theorem ParseValues_double_comma (p : Param) (rest : List Item) (w0 w1 t : List Nat)
    (hp : p.wellFormed = true) (hrest : ∀ it ∈ rest, it.wellFormed = true)
    (hw0 : ∀ c ∈ w0, c = 32 ∨ c = 9 ∨ c = 13 ∨ c = 10)
    (hw1 : ∀ c ∈ w1, c = 32 ∨ c = 9 ∨ c = 13 ∨ c = 10) :
    ParseValues (serialise p rest ++ (w0 ++ 44 :: (w1 ++ 44 :: t)))
      = Outcome.ret (insertAll [] (p :: rest.map Item.param),
          some (Error.unexpected 44 ((serialise p rest).length + w0.length + 1 + w1.length))) := by
  have hw0' : ∀ c ∈ w0, isSpace c = true := fun c hc => (isSpace_iff c).2 (hw0 c hc)
  have hw1' : ∀ c ∈ w1, isSpace c = true := fun c hc => (isSpace_iff c).2 (hw1 c hc)
  have ht : (w0 ++ 44 :: (w1 ++ 44 :: t)) = [] ∨
      ∃ c r, (w0 ++ 44 :: (w1 ++ 44 :: t)) = c :: r ∧ isTerminator c = true := by
    right
    rcases w0 with _ | ⟨c, w⟩
    · exact ⟨44, _, rfl, by decide⟩
    · refine ⟨c, _, rfl, ?_⟩
      have := hw0' c (List.mem_cons_self _ _)
      simp [isTerminator, this]
  apply ParseValues_list_tail p rest _ 1 _ hp hrest ht
  exact parseValuesLoop_done
    (parseValuesStep_double_comma _ _ w0 w1 t (serialise_ne_nil p rest hp) hw0' hw1')

/-- Witness of C12 on `a=1,, b=2`: the error is reported at position 4. -/
theorem ParseValues_double_comma_witness :
    ParseValues [97, 61, 49, 44, 44, 32, 98, 61, 50]
      = Outcome.ret ([([97], [49])], some (Error.unexpected 44 4)) :=
  ParseValues_double_comma ⟨[97], false, [49]⟩ [] [] [] [32, 98, 61, 50]
    (by decide) (by decide) (by decide) (by decide)

/-- C13 (the code departs from the claim): on `name="body` with `name` a
non-empty token and `body` made of plain bytes (no `"`, no `\`, no DEL, no
control byte other than tab, CR, LF) `ParseValues` does not return the
unterminated-quote error: the loop of `readQuoted` ends with `i = len(s)` and
the read of `s[i]` that follows panics. -/
theorem ParseValues_unterminated_quote (name body : List Nat) (hne : name ≠ [])
    (hname : ∀ x ∈ name, isTokenByte x = true)
    (hbody : ∀ c ∈ body, isQuotedByte c = true) :
    ParseValues (name ++ 61 :: 34 :: body) = Outcome.panic := by
  have hloop := readQuotedLoop_runs_off body [] ((name ++ [61]).length + 1) hbody (Or.inl rfl)
  rw [List.append_nil] at hloop
  have hq := readQuoted_runs_off (name ++ [61]) body hloop
  have hstep := parseValuesStep_quoted_first name body hne hname
  rw [hq] at hstep
  unfold ParseValues parseValues
  rw [parseValuesLoop, hstep]

/-- Witness of C13 on `name="abc`. -/
theorem ParseValues_unterminated_quote_witness :
    ParseValues ([110, 97, 109, 101] ++ 61 :: 34 :: [97, 98, 99]) = Outcome.panic :=
  ParseValues_unterminated_quote [110, 97, 109, 101] [97, 98, 99]
    (by decide) (by decide) (by decide)

/-- Counterexample to C14: in "a\x01" the name "a" is followed by a control
byte and `ParseValues` returns the invalid-char error at position 1, not the
expecting-'=' error; in "abc" the name is followed by the end of the input and
`ParseValues` panics on the read of `s[3]`. -/
theorem ParseValues_name_without_eq :
    ParseValues [97, 1] = Outcome.ret ([], some (Error.invalidChar 1)) ∧
    ParseValues [97, 98, 99] = Outcome.panic :=
  ⟨by decide, by decide⟩

/-- C14, amended: at whatever iteration the loop of `parseValues` starts (at
the start of the input, or at index `i` with map `m` after `n` entries stored
without error), when `nextToken` skips to a name token `name` at index `j` and
the byte `c` after the name is neither a token byte nor '=', `ParseValues`
returns the map `m` and an error that carries the position just past the name,
`j + len(name)`: the expecting-'=' error when `c` is a separator, a comma or
white space, the invalid-char error when `c` is a control byte, DEL or a
high-bit byte. -/
theorem ParseValues_missing_eq (s : List Nat) (n : Nat) (m : Values) (i j : Nat)
    (name t : List Nat) (c : Nat)
    (hstate : parseValuesState n s = some (m, i))
    (hnext : nextToken s i (i != 0) = (j, none))
    (hs : s.drop j = name ++ c :: t)
    (hname : ∀ x ∈ name, isTokenByte x = true)
    (hc : isTokenByte c = false) (h61 : c ≠ 61) :
    name ≠ [] ∧
    ParseValues s
      = Outcome.ret (m, some (if isTerminator c = true
          then Error.expectingEq c (j + name.length)
          else Error.invalidChar (j + name.length))) := by
  have hj : j < s.length := by
    by_contra hcon
    rw [List.drop_eq_nil_iff.2 (by omega)] at hs
    simp at hs
  constructor
  · intro hnil
    subst hnil
    obtain ⟨d, r, hd, hdt⟩ := nextToken_stop hnext hj
    rw [hs, List.nil_append, List.cons.injEq] at hd
    rw [← hd.1, hc] at hdt
    simp at hdt
  · obtain ⟨pre, hpre, hlen⟩ := exists_prefix s j (by omega)
    rw [hs] at hpre
    have hnext' : nextToken (pre ++ (name ++ c :: t)) i (i != 0) = (pre.length, none) := by
      rw [← hpre, hlen]
      exact hnext
    have hstep := parseValuesStep_missing_eq m pre name t c i hname hc h61 hnext'
    rw [← hpre, hlen] at hstep
    apply parseValues_of_loop (n := n + 1)
    rw [parseValuesLoop_state n 1 s m i hstate]
    exact parseValuesLoop_done hstep

/-- Witness of the amended C14.  On "a=1 b c", after the entry `a=1` stored
without a comma before the next name, the name "b" at index 4 is followed by a
space and the error is expecting '=' at position 5; on " a b" the name follows
leading white space and the position is 2; on "a b" it is 1; on "a\x01" the
error is invalid char at position 1. -/
theorem ParseValues_missing_eq_witness :
    (parseValuesState 1 [97, 61, 49, 32, 98, 32, 99] = some ([([97], [49])], 3) ∧
      nextToken [97, 61, 49, 32, 98, 32, 99] 3 (3 != 0) = (4, none) ∧
      ParseValues [97, 61, 49, 32, 98, 32, 99]
        = Outcome.ret ([([97], [49])], some (Error.expectingEq 32 5))) ∧
    ParseValues [32, 97, 32, 98] = Outcome.ret ([], some (Error.expectingEq 32 2)) ∧
    ParseValues [97, 32, 98] = Outcome.ret ([], some (Error.expectingEq 32 1)) ∧
    ParseValues [97, 1] = Outcome.ret ([], some (Error.invalidChar 1)) :=
  ⟨⟨by decide, by decide,
      (ParseValues_missing_eq [97, 61, 49, 32, 98, 32, 99] 1 [([97], [49])] 3 4 [98] [99] 32
        (by decide) (by decide) (by decide) (by decide) (by decide) (by decide)).2⟩,
    (ParseValues_missing_eq [32, 97, 32, 98] 0 [] 0 1 [97] [98] 32
      (by decide) (by decide) (by decide) (by decide) (by decide) (by decide)).2,
    (ParseValues_missing_eq [97, 32, 98] 0 [] 0 0 [97] [98] 32
      (by decide) (by decide) (by decide) (by decide) (by decide) (by decide)).2,
    (ParseValues_missing_eq [97, 1] 0 [] 0 0 [97] [] 1
      (by decide) (by decide) (by decide) (by decide) (by decide) (by decide)).2⟩

/-- C15 (the code departs from the claim): once a backslash is read in a
quoted value the flag `escape` stays set, every later byte is skipped, the
closing quote included, and `ParseValues` panics on the read of `s[len(s)]`:
for every non-empty token `name`, every run `u` of plain bytes and every `v`,
`ParseValues(name ++ "=\"" ++ u ++ "\\" ++ v)` panics, whatever `v` is. -/
theorem ParseValues_escape_runs_off (name u v : List Nat) (hne : name ≠ [])
    (hname : ∀ x ∈ name, isTokenByte x = true)
    (hu : ∀ c ∈ u, isQuotedByte c = true) :
    ParseValues (name ++ 61 :: 34 :: (u ++ 92 :: v)) = Outcome.panic := by
  have hloop := readQuotedLoop_runs_off u (92 :: v) ((name ++ [61]).length + 1) hu
    (Or.inr ⟨v, rfl⟩)
  have hq := readQuoted_runs_off (name ++ [61]) (u ++ 92 :: v) hloop
  have hstep := parseValuesStep_quoted_first name (u ++ 92 :: v) hne hname
  rw [hq] at hstep
  unfold ParseValues parseValues
  rw [parseValuesLoop, hstep]

/-- Witness of C15 on `a="x\"y"`, whose value holds the escape pair `\"`. -/
theorem ParseValues_escape_runs_off_witness :
    ParseValues ([97] ++ 61 :: 34 :: ([120] ++ 92 :: [34, 121, 34])) = Outcome.panic :=
  ParseValues_escape_runs_off [97] [120] [34, 121, 34] (by decide) (by decide) (by decide)

/-- C16 (the code departs from the claim): when the first offending byte `c`
of a quoted value, after plain bytes `u`, is DEL or a control byte other than
tab, CR, LF, `readQuoted` returns the reached-end error and not the
invalid-char error with the position of `c`, and so does `ParseValues` through
it: the test `s[i] != '"'` comes before the test of `err`. -/
theorem readQuoted_invalid_reports_end (pre u t : List Nat) (c : Nat)
    (hu : ∀ x ∈ u, isQuotedByte x = true)
    (hc : c = 127 ∨ (c < 32 ∧ c ≠ 9 ∧ c ≠ 13 ∧ c ≠ 10)) :
    readQuoted (pre ++ 34 :: (u ++ c :: t)) pre.length
      = Outcome.ret ([], some Error.reachedEnd) ∧
    ∀ name : List Nat, name ≠ [] → (∀ x ∈ name, isTokenByte x = true) →
      ParseValues (name ++ 61 :: 34 :: (u ++ c :: t))
        = Outcome.ret ([], some Error.reachedEnd) := by
  refine ⟨readQuoted_invalid pre u t c hu hc, ?_⟩
  intro name hne hname
  have hq := readQuoted_invalid (name ++ [61]) u t c hu hc
  have hstep := parseValuesStep_quoted_first name (u ++ c :: t) hne hname
  rw [hq] at hstep
  exact parseValues_of_loop (parseValuesLoop_done hstep)

/-- Witness of C16 on the quoted value `"b\x01c"` at offset 0. -/
theorem readQuoted_invalid_reports_end_witness :
    readQuoted ([] ++ 34 :: ([98] ++ 1 :: [99, 34])) ([] : List Nat).length
      = Outcome.ret ([], some Error.reachedEnd) :=
  (readQuoted_invalid_reports_end [] [98] [99, 34] 1 (by decide) (by decide)).1

/-- C17: for `offset ≤ len(s)`, when `nextToken(s, offset, comma)` returns
`(i, e)`, then `offset ≤ i ≤ len(s)`, the bytes of `s[offset:i]` are space,
tab, CR, LF or ',', at most one of them is ',' and none when `comma` is false.
Without error, `i = len(s)` or `s[i]` is a token byte.  With an error, `s[i]`
is the first byte that cannot be skipped (neither white space nor a token
byte, and a ',' only if commas are not allowed or one was already passed) and
the error carries the index `i`. -/
theorem nextToken_skips (s : List Nat) (offset : Nat) (comma : Bool) (i : Nat)
    (e : Option Error) (h : offset ≤ s.length) (hn : nextToken s offset comma = (i, e)) :
    offset ≤ i ∧ i ≤ s.length ∧
    (∀ c ∈ (s.take i).drop offset, c = 32 ∨ c = 9 ∨ c = 13 ∨ c = 10 ∨ c = 44) ∧
    ((s.take i).drop offset).count 44 ≤ 1 ∧
    (comma = false → 44 ∉ (s.take i).drop offset) ∧
    (e = none → i = s.length ∨ ∃ c, s[i]? = some c ∧ 33 ≤ c ∧ c ≤ 126 ∧
      c ∉ [40, 41, 60, 62, 64, 44, 59, 58, 92, 34, 47, 91, 93, 63, 61, 123, 125]) ∧
    (e ≠ none → ∃ c, s[i]? = some c ∧
      ¬(c = 32 ∨ c = 9 ∨ c = 13 ∨ c = 10) ∧
      ¬(33 ≤ c ∧ c ≤ 126 ∧
        c ∉ [40, 41, 60, 62, 64, 44, 59, 58, 92, 34, 47, 91, 93, 63, 61, 123, 125]) ∧
      (c = 44 → comma = false ∨ 44 ∈ (s.take i).drop offset) ∧
      e = some (if c < 32 ∨ 127 ≤ c then Error.invalidChar i else Error.unexpected c i)) := by
  obtain ⟨pre, hs, hpre⟩ := exists_prefix s offset h
  obtain ⟨w, rest, h1, h2, h3, h4, h5⟩ := nextTokenLoop_spec comma (s.drop offset) offset 0
  have hn' : nextTokenLoop comma (s.drop offset) offset 0 = (i, e) := hn
  rw [hn'] at h4 h5
  simp only [] at h4 h5
  have hw : (s.take i).drop offset = w := by
    rw [hs, h1, h4, ← hpre]
    exact take_drop_append pre w rest
  have hidx : s[i]? = rest.head? := by
    rw [hs, h1, h4, ← hpre]
    exact getElem?_append_head pre w rest
  have hlen : s.length = offset + w.length + rest.length := by
    have := congrArg List.length hs
    rw [h1] at this
    simp only [List.length_append] at this
    omega
  rw [hw]
  refine ⟨by omega, by omega, ?_, ?_, ?_, ?_, ?_⟩
  · intro c hc
    rcases h2 c hc with h6 | h6
    · have := (isSpace_iff c).1 h6
      omega
    · omega
  · split_ifs at h3 <;> omega
  · intro hc hmem
    rw [if_neg (by simp [hc])] at h3
    have := List.count_pos_iff.2 hmem
    omega
  · intro he
    subst he
    rcases h5 with ⟨_, h6 | ⟨c, r, h6, hc⟩⟩ | ⟨_, _, _, _, _, _, h6⟩
    · left
      rw [hlen, h6, h4]
      simp
    · right
      refine ⟨c, by rw [hidx, h6]; rfl, (isTokenByte_iff c).1 hc⟩
    · simp at h6
  · intro he
    rcases h5 with ⟨h6, _⟩ | ⟨c, r, h6, hsp, htok, h44, herr⟩
    · exact absurd h6 he
    · refine ⟨c, by rw [hidx, h6]; rfl, ?_, ?_, ?_, ?_⟩
      · intro hws
        rw [(isSpace_iff c).2 hws] at hsp
        simp at hsp
      · intro ht
        rw [(isTokenByte_iff c).2 ht] at htok
        simp at htok
      · intro hc
        rcases h44 hc with h7 | h7
        · exact Or.inl h7
        · right
          exact List.count_pos_iff.1 (by omega)
      · rw [herr]
        by_cases hinv : isInvalid c = true
        · rw [if_pos hinv]
          simp only [isInvalid, Bool.or_eq_true, decide_eq_true_eq] at hinv
          rw [if_pos (by omega), h4]
        · rw [if_neg hinv]
          simp only [isInvalid, Bool.or_eq_true, decide_eq_true_eq] at hinv
          rw [if_neg (by omega), h4]

/-- Witness of C17 on " , x" from offset 0 with commas allowed: the result is
index 3 and no error. -/
theorem nextToken_skips_witness :
    nextToken [32, 44, 32, 120] 0 true = (3, none) ∧
    ((([32, 44, 32, 120] : List Nat).take 3).drop 0).count 44 ≤ 1 :=
  ⟨by decide,
    (nextToken_skips [32, 44, 32, 120] 0 true 3 none (by decide) (by decide)).2.2.2.1⟩

/-- C18: for `offset ≤ len(s)`, `s[offset:]` is a run `t` of token bytes
followed by `rest`, where either `rest` is empty or starts with a separator,
a comma or a white-space byte, and then `readToken(s, offset)` returns `t`
(possibly empty) and no error, or `rest` starts with a control byte other than
tab, CR, LF, with DEL or with a high-bit byte, and then it returns the
invalid-char error at the index of that byte. -/
theorem readToken_maximal_run (s : List Nat) (offset : Nat) (h : offset ≤ s.length) :
    ∃ t rest, s.drop offset = t ++ rest ∧
      (∀ c ∈ t, 33 ≤ c ∧ c ≤ 126 ∧
        c ∉ [40, 41, 60, 62, 64, 44, 59, 58, 92, 34, 47, 91, 93, 63, 61, 123, 125]) ∧
      (((rest = [] ∨ ∃ c r, rest = c :: r ∧
            (c ∈ [40, 41, 60, 62, 64, 44, 59, 58, 92, 34, 47, 91, 93, 63, 61, 123, 125] ∨
              c = 32 ∨ c = 9 ∨ c = 13 ∨ c = 10)) ∧
          readToken s offset = Outcome.ret (t, none)) ∨
        ((∃ c r, rest = c :: r ∧ ((c < 32 ∧ c ≠ 9 ∧ c ≠ 13 ∧ c ≠ 10) ∨ 127 ≤ c)) ∧
          readToken s offset
            = Outcome.ret ([], some (Error.invalidChar (offset + t.length))))) := by
  obtain ⟨pre, hs, hpre⟩ := exists_prefix s offset h
  obtain ⟨t, rest, hl, ht, hcase⟩ := readToken_spec pre (s.drop offset)
  rw [← hs, hpre] at hcase
  refine ⟨t, rest, hl, fun c hc => (isTokenByte_iff c).1 (ht c hc), ?_⟩
  rcases hcase with ⟨heq, hrest⟩ | ⟨heq, c, r, hr, hterm, hinv⟩
  · left
    refine ⟨?_, heq⟩
    rcases hrest with h0 | ⟨c, r, h0, hterm⟩
    · exact Or.inl h0
    · exact Or.inr ⟨c, r, h0, (isTerminator_iff c).1 hterm⟩
  · right
    refine ⟨⟨c, r, hr, ?_⟩, heq⟩
    have hnt := (isTerminator_iff c).not.1 (by rw [hterm]; simp)
    simp only [isInvalid, Bool.or_eq_true, decide_eq_true_eq] at hinv
    omega

/-- Witness of C18 on "ab=c" from offset 0: the token "ab" is returned. -/
theorem readToken_maximal_run_witness :
    readToken [97, 98, 61, 99] 0 = Outcome.ret ([97, 98], none) ∧
    ∃ t rest, ([97, 98, 61, 99] : List Nat).drop 0 = t ++ rest ∧
      (∀ c ∈ t, 33 ≤ c ∧ c ≤ 126 ∧
        c ∉ [40, 41, 60, 62, 64, 44, 59, 58, 92, 34, 47, 91, 93, 63, 61, 123, 125]) ∧
      (((rest = [] ∨ ∃ c r, rest = c :: r ∧
            (c ∈ [40, 41, 60, 62, 64, 44, 59, 58, 92, 34, 47, 91, 93, 63, 61, 123, 125] ∨
              c = 32 ∨ c = 9 ∨ c = 13 ∨ c = 10)) ∧
          readToken [97, 98, 61, 99] 0 = Outcome.ret (t, none)) ∨
        ((∃ c r, rest = c :: r ∧ ((c < 32 ∧ c ≠ 9 ∧ c ≠ 13 ∧ c ≠ 10) ∨ 127 ≤ c)) ∧
          readToken [97, 98, 61, 99] 0
            = Outcome.ret ([], some (Error.invalidChar (0 + t.length))))) :=
  ⟨by decide, readToken_maximal_run [97, 98, 61, 99] 0 (by decide)⟩

/-- C19: for every map `m` whose keys are non-empty tokens and whose values
hold no `"`, no `\`, no DEL and no control byte other than tab, CR, LF, and for
every order `order` in which `Encode` visits the entries of `m`,
`ParseValues(Encode(m))` returns no error and a map with the same pairs as `m`,
so that every lookup gives the same result; the nil map and the empty map
encode to "" and parse back to the empty map. -/
theorem Encode_ParseValues_round_trip (m order : Values)
    (hnd : (m.map Prod.fst).Nodup) (hperm : order.Perm m)
    (hkeys : ∀ kv ∈ m, kv.1 ≠ [] ∧ ∀ c ∈ kv.1, 33 ≤ c ∧ c ≤ 126 ∧
      c ∉ [40, 41, 60, 62, 64, 44, 59, 58, 92, 34, 47, 91, 93, 63, 61, 123, 125])
    (hvals : ∀ kv ∈ m, ∀ c ∈ kv.2, c ≠ 34 ∧ c ≠ 92 ∧ c ≠ 127 ∧
      (32 ≤ c ∨ c = 9 ∨ c = 13 ∨ c = 10)) :
    (∃ r, ParseValues (Values.Encode (some order)) = Outcome.ret (r, none) ∧
      r.Perm m ∧ ∀ name, r.get name = m.get name) ∧
    Values.Encode none = [] ∧ Values.Encode (some []) = [] ∧
    ParseValues [] = Outcome.ret ([], none) := by
  refine ⟨?_, rfl, rfl, by decide⟩
  have hnd' : (order.map Prod.fst).Nodup := (hperm.map Prod.fst).nodup_iff.2 hnd
  have hwf : ∀ kv ∈ order, (entryParam kv).wellFormed = true := by
    intro kv hkv
    have hmem := hperm.mem_iff.1 hkv
    obtain ⟨h1, h2⟩ := hkeys kv hmem
    have h3 := hvals kv hmem
    simp only [Param.wellFormed, entryParam, if_true, Bool.and_eq_true, Bool.not_eq_true',
      List.isEmpty_eq_false, all_true_iff]
    refine ⟨⟨h1, fun c hc => (isTokenByte_iff c).2 (h2 c hc)⟩, ?_⟩
    intro c hc
    have := h3 c hc
    simp only [isQuotedByte, Bool.and_eq_true, bne_iff_ne, ne_eq, Bool.or_eq_true,
      decide_eq_true_eq, beq_iff_eq]
    omega
  have hr : order.reverse.Perm m := (List.reverse_perm order).trans hperm
  exact ⟨order.reverse, ParseValues_Encode order hnd' hwf, hr,
    fun name => Values.get_perm _ _ hr hnd name⟩

/-- Witness of C19: the map with `a` bound to "1" and `b` bound to "x y",
visited with `b` first, is encoded as `b="x y", a="1"` and parsed back. -/
theorem Encode_ParseValues_round_trip_witness :
    Values.Encode (some [([98], [120, 32, 121]), ([97], [49])])
      = [98, 61, 34, 120, 32, 121, 34, 44, 32, 97, 61, 34, 49, 34] ∧
    ∃ r, ParseValues (Values.Encode (some [([98], [120, 32, 121]), ([97], [49])]))
        = Outcome.ret (r, none) ∧
      r.Perm [([97], [49]), ([98], [120, 32, 121])] ∧
      ∀ name, r.get name = Values.get [([97], [49]), ([98], [120, 32, 121])] name :=
  ⟨by decide,
    (Encode_ParseValues_round_trip [([97], [49]), ([98], [120, 32, 121])]
      [([98], [120, 32, 121]), ([97], [49])] (by decide)
      (List.Perm.swap _ _ _) (by decide) (by decide)).1⟩

/-- C20: whenever `ParseValues` returns, with or without an error, every key
of the returned map is a non-empty token: it has at least one byte, and every
byte lies in 0x21..0x7E and is not a separator. -/
theorem ParseValues_keys_tokens (s : List Nat) (m : Values) (e : Option Error)
    (h : ParseValues s = Outcome.ret (m, e)) :
    ∀ k ∈ m.map Prod.fst, 1 ≤ k.length ∧ ∀ c ∈ k, 33 ≤ c ∧ c ≤ 126 ∧
      c ∉ [40, 41, 60, 62, 64, 44, 59, 58, 92, 34, 47, 91, 93, 63, 61, 123, 125] := by
  obtain ⟨ps, hm, hps⟩ := parseValuesLoop_map _ _ m _ _ _ h
  intro k hk
  rw [hm] at hk
  rcases insertAll_keys ps [] k hk with h0 | ⟨p, hp, hpk⟩
  · simp at h0
  · obtain ⟨h1, h2⟩ := hps p hp
    rw [hpk] at h1 h2
    refine ⟨?_, fun c hc => (isTokenByte_iff c).1 (h2 c hc)⟩
    rcases k with _ | ⟨x, k'⟩
    · exact absurd rfl h1
    · simp

/-- Witness of C20 on `a=1,, b=2`, which returns an error and the map with the
single key "a". -/
theorem ParseValues_keys_tokens_witness :
    ParseValues [97, 61, 49, 44, 44, 32, 98, 61, 50]
      = Outcome.ret ([([97], [49])], some (Error.unexpected 44 4)) ∧
    (1 ≤ [97].length ∧ ∀ c ∈ [97], 33 ≤ c ∧ c ≤ 126 ∧
      c ∉ [40, 41, 60, 62, 64, 44, 59, 58, 92, 34, 47, 91, 93, 63, 61, 123, 125]) :=
  ⟨by decide,
    ParseValues_keys_tokens [97, 61, 49, 44, 44, 32, 98, 61, 50] [([97], [49])]
      (some (Error.unexpected 44 4)) (by decide) [97] (by decide)⟩

end HttpAuth
